import Mathlib

/-!
# Ethernet codec (`src/codecs/root/cd_eth.cc`) and converter line loop

A shallow embedding of `EthCodec::decode`, `EthCodec::encode`, `EthCodec::update` and
`EthCodec::format`, and of the string helpers and the line loop of the configuration
converter (`tools/snort2lua/util/util.h`, `tools/snort2lua/util/converter.cc`).

Conventions of the embedding:

* a byte is a `Fin 256`; a `const uint8_t*` the codec only reads from is the list of
  bytes that can be read through it, and a read past the end of that list has no
  defined result (`none`);
* the output buffer of `encode` is written through `out->base`, so its storage is a
  byte-addressed memory `Nat → Byte` and `base` is an address in it;
* out-parameters (`lyr_len`, `next_prot_id`) are passed in with the caller's value and
  returned with the value they hold when the function returns;
* constants and helpers that the codec takes from headers that are not part of the
  source tree (`eth::min_ethertype()`, `PROTO_BIT__ETH`, `ENC_FLAG_RAW`, `forward`,
  `reverse`, `update_buffer`, `PacketManager::encode_get_dst_mac`) are parameters of
  the definitions, so every theorem holds for every value they can take;
* `DEBUG_WRAP(...)` lines only print and are left out.
-/

/-- One octet of packet data (`uint8_t`). -/
abbrev Byte := Fin 256

/-- Bytes `off .. off + n - 1` read through a pointer to `raw`; `none` when one of them
lies past the end of the data behind the pointer. -/
def readBytes (raw : List Byte) (off n : Nat) : Option (List Byte) :=
  if off + n ≤ raw.length then some ((raw.drop off).take n) else none

namespace eth

/-- Modelled from the spec: `protocols/eth.h` is not in the source tree. The fixed
Ethernet header length returned by `eth::hdr_len()`: 6-byte destination address,
6-byte source address, 2-byte type field. -/
def hdr_len : Nat := 14

/-- Modelled from the spec: `sizeof(eth::EtherHdr)`, the struct `protocols/eth.h`
declares as `ether_dst[6]`, `ether_src[6]`, `ether_type` (a `uint16_t`). -/
def sizeof_EtherHdr : Nat := 14

/-- Modelled from the spec: offset of `ether_dst` in `eth::EtherHdr`. -/
def off_ether_dst : Nat := 0

/-- Modelled from the spec: offset of `ether_src` in `eth::EtherHdr`. -/
def off_ether_src : Nat := 6

/-- Modelled from the spec: offset of `ether_type` in `eth::EtherHdr`. -/
def off_ether_type : Nat := 12

/-- Modelled from the spec: size of each address array of `eth::EtherHdr`
(`sizeof(ho->ether_src)`, `sizeof(ho->ether_dst)`), a 6-byte address. -/
def addr_len : Nat := 6

/-- Load of `eh->ether_dst` through a header pointer laid over `raw`. -/
def ether_dst (raw : List Byte) : Option (List Byte) := readBytes raw off_ether_dst addr_len

/-- Load of `eh->ether_src` through a header pointer laid over `raw`. -/
def ether_src (raw : List Byte) : Option (List Byte) := readBytes raw off_ether_src addr_len

/-- Load of `eh->ether_type` through a header pointer laid over `raw`: the two bytes of
the field in the order they are stored. -/
def ether_type (raw : List Byte) : Option (List Byte) := readBytes raw off_ether_type 2

end eth

/-- The value `ntohs` gives for a 16-bit field whose stored bytes are `w`: the first
stored byte is the high one, whatever the host byte order. -/
def ntohs (w : List Byte) : Nat :=
  match w with
  | [hi, lo] => hi.val * 256 + lo.val
  | _ => 0

/-- Modelled from the spec: the event-kind identifiers of `codecs/codec_events.h`, which is
not in the source tree. The codec names `DECODE_ETH_HDR_TRUNC` (link header truncated);
`other` stands for the rest of the enumeration. -/
inductive CodecSid where
  | DECODE_ETH_HDR_TRUNC
  | other (sid : Nat)
  deriving DecidableEq

/-- Modelled from the spec: one decoded `Layer` of a packet (`protocols/packet.h` is not in
the source tree), with the two fields the codec uses: the bytes at `start` and the
layer's `length`. -/
structure Layer where
  start : List Byte
  length : Nat
  deriving DecidableEq

/-- Modelled from the spec: the part of `Packet` the codec touches, the protocol presence
flags `proto_bits` and the ordered sequence of layers. -/
structure Packet where
  proto_bits : Nat
  layers : List Layer
  deriving DecidableEq

/-- What a call of `decode` leaves behind: the returned flag, the packet, the two
out-parameters and the calls of `codec_events::decoder_event` it made, in order. -/
structure DecodeResult where
  ret : Bool
  p : Packet
  lyr_len : Nat
  next_prot_id : Nat
  events : List CodecSid
  deriving DecidableEq

/-- Modelled from the spec: the encode descriptor `EncState`, of which the codec reads
the `flags` word (direction and raw mode). -/
structure EncState where
  flags : Nat
  deriving DecidableEq

/-- Modelled from the spec: the encode `Buffer` (storage, the two write cursors `off` and
`end`, the allocation size); `base` is the address the codec writes its header at. -/
structure Buffer where
  mem : Nat → Byte
  base : Nat
  off : Nat
  end_ : Nat
  size : Nat

/-- Write of `bytes` to the buffer's storage at address `addr` (`memcpy`, or the
assignment of a multi-byte field). -/
def Buffer.store (b : Buffer) (addr : Nat) (bytes : List Byte) : Buffer :=
  { b with mem := fun a => if addr ≤ a then (bytes[a - addr]?).getD (b.mem a) else b.mem a }

/-- The `n` bytes of the buffer's storage from address `addr` on. -/
def Buffer.load (b : Buffer) (addr n : Nat) : List Byte :=
  (List.range n).map fun i => b.mem (addr + i)

/-- Modelled from the spec: `SPARC_TWIDDLE` is defined in a header outside the source
tree; the spec describes it as the fixed small alignment pad that puts the header
after the 14-byte Ethernet header on a word boundary. -/
def SPARC_TWIDDLE : Nat := 2

namespace EthCodec

/-- `EthCodec::decode` (cd_eth.cc, lines 81-122). -/
def decode (min_ethertype PROTO_BIT__ETH : Nat) (raw_pkt : List Byte) (raw_len : Nat)
    (p : Packet) (lyr_len next_prot_id : Nat) : Option DecodeResult :=
  if raw_len < eth.hdr_len then
    some { ret := false, p := p, lyr_len := lyr_len, next_prot_id := next_prot_id,
           events := [CodecSid.DECODE_ETH_HDR_TRUNC] }
  else
    (eth.ether_type raw_pkt).bind fun ty =>
      let next_prot_id := ntohs ty
      if next_prot_id > min_ethertype then
        some { ret := true, p := { p with proto_bits := p.proto_bits ||| PROTO_BIT__ETH },
               lyr_len := eth.hdr_len, next_prot_id := next_prot_id, events := [] }
      else
        some { ret := false, p := p, lyr_len := lyr_len, next_prot_id := next_prot_id,
               events := [] }

/-- The first `if` of `EthCodec::encode` (lines 137-141): the alignment pad. `raw` is
`enc->flags & ENC_FLAG_RAW`. -/
def encode_align (raw : Nat) (out : Buffer) : Buffer :=
  if raw = 0 ∧ out.off = out.end_ then
    { out with off := SPARC_TWIDDLE, end_ := SPARC_TWIDDLE }
  else out

/-- The second `if` of `EthCodec::encode` (lines 144-175): reserve and fill the header. -/
def encode_hdr (forward : EncState → Bool) (update_buffer : Buffer → Nat → Bool × Buffer)
    (dst_mac : Option (List Byte)) (raw : Nat) (enc : EncState) (out : Buffer)
    (raw_in : List Byte) : Option (Bool × Buffer) :=
  if raw = 0 ∨ out.off ≠ out.end_ then
    let r := update_buffer out eth.sizeof_EtherHdr
    if r.1 = false then some (false, r.2)
    else
      let out := r.2
      let ho := out.base
      (eth.ether_type raw_in).bind fun ty =>
        let out := out.store (ho + eth.off_ether_type) ty
        if forward enc then
          (eth.ether_src raw_in).bind fun src =>
            let out := out.store (ho + eth.off_ether_src) src
            match dst_mac with
            | some m =>
              (readBytes m 0 eth.addr_len).bind fun d =>
                some (true, out.store (ho + eth.off_ether_dst) d)
            | none =>
              (eth.ether_dst raw_in).bind fun d =>
                some (true, out.store (ho + eth.off_ether_dst) d)
        else
          (eth.ether_dst raw_in).bind fun src =>
            let out := out.store (ho + eth.off_ether_src) src
            match dst_mac with
            | some m =>
              (readBytes m 0 eth.addr_len).bind fun d =>
                some (true, out.store (ho + eth.off_ether_dst) d)
            | none =>
              (eth.ether_src raw_in).bind fun d =>
                some (true, out.store (ho + eth.off_ether_dst) d)
  else some (true, out)

/-- `EthCodec::encode` (cd_eth.cc, lines 129-176). `dst_mac` is what
`PacketManager::encode_get_dst_mac()` returns (`none` for `nullptr`). -/
def encode (ENC_FLAG_RAW : Nat) (forward : EncState → Bool)
    (update_buffer : Buffer → Nat → Bool × Buffer) (dst_mac : Option (List Byte))
    (enc : EncState) (out : Buffer) (raw_in : List Byte) : Option (Bool × Buffer) :=
  let raw := enc.flags &&& ENC_FLAG_RAW
  encode_hdr forward update_buffer dst_mac raw enc (encode_align raw out) raw_in

end EthCodec

/-- Store of `bytes` at offset `off` through a pointer to the bytes `raw` of a layer;
`none` when the store would run past the end of the data behind the pointer. -/
def writeBytes (raw : List Byte) (off : Nat) (bytes : List Byte) : Option (List Byte) :=
  if off + bytes.length ≤ raw.length then
    some (raw.take off ++ bytes ++ raw.drop (off + bytes.length))
  else none

/-- What a call of `update` leaves behind: the returned flag, the packet and the layer it
was given, and the accumulated length `*len`. -/
structure UpdateResult where
  ret : Bool
  p : Packet
  lyr : Layer
  len : Nat
  deriving DecidableEq

/-- What a call of `format` leaves behind: the original packet `p` and the clone `c`. -/
structure FormatResult where
  p : Packet
  c : Packet
  deriving DecidableEq

namespace EthCodec

/-- `EthCodec::update` (cd_eth.cc, lines 178-182): `*len += lyr->length` on a
`uint32_t`. -/
def update (p : Packet) (lyr : Layer) (len : Nat) : UpdateResult :=
  { ret := true, p := p, lyr := lyr, len := (len + lyr.length) % 2 ^ 32 }

/-- `EthCodec::format` (cd_eth.cc, lines 184-196). `lyr` points into `c->layers`, so it
is given by its index `i = lyr - c->layers`; `reverse` is the direction test of the
encode flags, which is declared outside the source tree. The clone and the original are
two packets: a store into the clone's layer does not change what is read from the
original. -/
def format (reverse : Nat → Bool) (f : Nat) (p c : Packet) (i : Nat) : Option FormatResult :=
  (c.layers[i]?).bind fun lyr =>
    let ch := lyr.start
    if reverse f then
      (p.layers[i]?).bind fun pl =>
        let ph := pl.start
        (eth.ether_src ph).bind fun src =>
          (writeBytes ch eth.off_ether_dst src).bind fun ch1 =>
            (eth.ether_dst ph).bind fun dst =>
              (writeBytes ch1 eth.off_ether_src dst).bind fun ch2 =>
                some { p := p, c := { c with layers := c.layers.set i { lyr with start := ch2 } } }
    else some { p := p, c := c }

end EthCodec

/-! ## String helpers of the configuration converter (`tools/snort2lua/util/util.h`)

A `std::string` is a list of characters; the functions change their argument in place
and return it, which is modelled by returning the new string. `std::isspace` is a
parameter: the theorems hold for every classification of the characters. -/

namespace util

/-- `std::find_if(first, last, pred)` over a whole string: the position of the first
character that satisfies `pred`, the length of the string when there is none. -/
def find_if (pred : Char → Bool) (s : List Char) : Nat := s.findIdx pred

/-- `s.erase(first, last)` with the two iterators given as positions. -/
def erase (s : List Char) (first last : Nat) : List Char := s.take first ++ s.drop last

/-- `util::ltrim` (util.h, lines 51-54). -/
def ltrim (isspace : Char → Bool) (s : List Char) : List Char :=
  erase s 0 (find_if (fun c => !isspace c) s)

/-- `util::rtrim` (util.h, lines 57-60): the search runs over the reversed string, and
`.base()` of the reverse iterator at reverse position `k` is the position
`s.length - k`. -/
def rtrim (isspace : Char → Bool) (s : List Char) : List Char :=
  erase s (s.length - find_if (fun c => !isspace c) s.reverse) s.length

/-- `util::trim` (util.h, lines 63-65). -/
def trim (isspace : Char → Bool) (s : List Char) : List Char :=
  ltrim isspace (rtrim isspace s)

end util

/-! ## The line loop of `Converter::convert_file` (`tools/snort2lua/util/converter.cc`) -/

/-- What one pass of the `while` loop of `convert_file` does with the text it examined:
it records a reject comment (`ld.add_reject_comment`), keeps the text pending for the
next line, or runs the conversion state over the text. -/
inductive LineEvent where
  | reject_comment (text : List Char)
  | continued
  | convert (text : List Char)
  deriving DecidableEq

namespace Converter

/-- Lines 95-99 of `convert_file`: the line `tmp` just read is left-trimmed and appended
to the pending text after one space, and the whole is trimmed. -/
def accumulate (isspace : Char → Bool) (orig_text tmp : List Char) : List Char :=
  util.trim isspace (orig_text ++ ' ' :: util.ltrim isspace tmp)

/-- Lines 101-131 of `convert_file`: the four-way branch on the examined text. The
result is the pending text left in `orig_text` and what was done. -/
def dispatch (isspace : Char → Bool) (orig_text : List Char) : List Char × LineEvent :=
  if orig_text.isEmpty then (orig_text, LineEvent.reject_comment [])
  else if orig_text.head? = some '#' then
    ([], LineEvent.reject_comment (util.trim isspace orig_text.tail))
  else if orig_text.getLast? = some '\\' then
    (util.rtrim isspace orig_text.dropLast, LineEvent.continued)
  else ([], LineEvent.convert orig_text)

/-- One pass of the `while` loop (lines 93-132) for the line `tmp`. -/
def convert_line (isspace : Char → Bool) (orig_text tmp : List Char) : List Char × LineEvent :=
  dispatch isspace (accumulate isspace orig_text tmp)

/-- The `while` loop over the lines `std::getline` delivers, starting with the pending
text `orig_text`: what each pass did, in order. -/
def convert_lines (isspace : Char → Bool) : List Char → List (List Char) → List LineEvent
  | _, [] => []
  | orig_text, tmp :: rest =>
    (convert_line isspace orig_text tmp).2
      :: convert_lines isspace (convert_line isspace orig_text tmp).1 rest

end Converter

/-! ## Sample inputs -/

/-- A 14-byte frame: zero addresses and the type field `0x0800`. -/
def frame_ipv4 : List Byte := List.replicate 12 0 ++ [0x08, 0x00]

/-- A 14-byte frame whose type field is 1537 (`0x0601`), one above 1536. -/
def frame_above_threshold : List Byte := List.replicate 12 0 ++ [0x06, 0x01]

/-- A 14-byte frame whose type field is exactly 1536 (`0x0600`). -/
def frame_at_threshold : List Byte := List.replicate 12 0 ++ [0x06, 0x00]

/-- An `update_buffer` for the examples: it reserves `n` bytes in front of the data
written so far when the allocation has room for them, and fails otherwise. -/
def sample_update_buffer (b : Buffer) (n : Nat) : Bool × Buffer :=
  if b.end_ + n ≤ b.size then (true, { b with base := b.base - n, end_ := b.end_ + n })
  else (false, b)

/-- An empty output buffer of 64 bytes for the examples. -/
def sample_out : Buffer := { mem := fun _ => 0, base := 100, off := 0, end_ := 0, size := 64 }

/-- A 14-byte header for the examples: destination 1..6, source 7..12, type `0x0800`. -/
def sample_hdr : List Byte := [1, 2, 3, 4, 5, 6, 7, 8, 9, 10, 11, 12, 0x08, 0x00]

/-- The direction test of the examples: the forward flag is bit 31 of the flags. -/
def sample_forward (enc : EncState) : Bool := enc.flags &&& 0x80000000 != 0

/-- The override address of the examples. -/
def sample_mac : List Byte := [0xaa, 0xbb, 0xcc, 0xdd, 0xee, 0xff]

/-- An `update_buffer` that refuses every reservation and leaves the buffer as it gets
it: what `encode` returns with it is the buffer `encode` hands to `update_buffer`. -/
def refusing_update_buffer (b : Buffer) (_n : Nat) : Bool × Buffer := (false, b)

/-- An output buffer that already holds 20 bytes, for the examples. -/
def sample_out_used : Buffer :=
  { mem := fun _ => 0, base := 80, off := 0, end_ := 20, size := 64 }

/-- An output buffer with room for 8 bytes only, for the examples. -/
def sample_out_small : Buffer :=
  { mem := fun _ => 0, base := 8, off := 0, end_ := 0, size := 8 }

/-- The classification `std::isspace` makes in the "C" locale, for the examples. -/
def sample_isspace (c : Char) : Bool :=
  c = ' ' || c = '\t' || c = '\n' || c = '\x0b' || c = '\x0c' || c = '\r'

/-- The direction test of the examples for `format`: reverse is the forward flag clear. -/
def sample_reverse (f : Nat) : Bool := f &&& 0x80000000 == 0

/-- An original packet of the examples: one Ethernet layer over the sample header. -/
def sample_orig : Packet := { proto_bits := 8, layers := [⟨sample_hdr, 14⟩] }

/-- A clone of the examples whose header differs from the original's addresses. -/
def sample_clone : Packet :=
  { proto_bits := 8,
    layers := [⟨[21, 22, 23, 24, 25, 26, 27, 28, 29, 30, 31, 32, 0x86, 0xdd], 14⟩] }

/-! ## Reading the header fields -/

/-- A read that stays inside the data succeeds. -/
theorem readBytes_of_le (raw : List Byte) (off n : Nat) (h : off + n ≤ raw.length) :
    readBytes raw off n = some ((raw.drop off).take n) := by
  simp [readBytes, h]

/-- A read that succeeds stayed inside the data. -/
theorem readBytes_some_le (raw : List Byte) (off n : Nat) (bs : List Byte)
    (h : readBytes raw off n = some bs) : off + n ≤ raw.length := by
  unfold readBytes at h
  split at h
  · assumption
  · simp at h

/-- The bytes a successful read returns, one by one. -/
theorem getElem_opt_drop_take (raw : List Byte) (off n i : Nat) (hi : i < n) :
    ((raw.drop off).take n)[i]? = raw[off + i]? := by
  rw [List.getElem?_take_of_lt hi, List.getElem?_drop]

/-- A successful read returns exactly `n` bytes. -/
theorem length_drop_take (raw : List Byte) (off n : Nat) (h : off + n ≤ raw.length) :
    ((raw.drop off).take n).length = n := by
  simp only [List.length_take, List.length_drop]
  omega

/-- The type field of a buffer that holds a whole header is its bytes 12 and 13. -/
theorem ether_type_eq (raw : List Byte) (h : 14 ≤ raw.length) :
    eth.ether_type raw = some [raw.getD 12 0, raw.getD 13 0] := by
  unfold eth.ether_type eth.off_ether_type
  rw [readBytes_of_le raw 12 2 (by omega)]
  congr 1
  apply List.ext_getElem?
  intro i
  by_cases hi : i < 2
  · rw [getElem_opt_drop_take raw 12 2 i hi]
    have h2 : i = 0 ∨ i = 1 := by omega
    rcases h2 with rfl | rfl
    · simp [List.getD_eq_getElem?_getD, List.getElem?_eq_getElem (show 12 < raw.length by omega)]
    · simp [List.getD_eq_getElem?_getD, List.getElem?_eq_getElem (show 13 < raw.length by omega)]
  · have hl := length_drop_take raw 12 2 (by omega)
    rw [List.getElem?_eq_none (by omega), List.getElem?_eq_none (by simp; omega)]

/-- OR-ing a presence bit into the protocol bits leaves that bit set. -/
theorem lor_land_self (a b : Nat) : (a ||| b) &&& b = b := by
  apply Nat.eq_of_testBit_eq
  intro i
  rw [Nat.testBit_land, Nat.testBit_lor]
  cases a.testBit i <;> cases b.testBit i <;> rfl

/-- With a whole header in the buffer, `decode` is decided by the type field alone. -/
theorem decode_of_header (min_ethertype PROTO_BIT__ETH : Nat) (raw_pkt : List Byte)
    (raw_len : Nat) (p : Packet) (lyr_len next_prot_id : Nat)
    (hlen : 14 ≤ raw_len) (hbuf : raw_len ≤ raw_pkt.length) :
    EthCodec.decode min_ethertype PROTO_BIT__ETH raw_pkt raw_len p lyr_len next_prot_id
      = if min_ethertype < (raw_pkt.getD 12 0).val * 256 + (raw_pkt.getD 13 0).val then
          some { ret := true,
                 p := { p with proto_bits := p.proto_bits ||| PROTO_BIT__ETH },
                 lyr_len := 14,
                 next_prot_id := (raw_pkt.getD 12 0).val * 256 + (raw_pkt.getD 13 0).val,
                 events := [] }
        else
          some { ret := false, p := p, lyr_len := lyr_len,
                 next_prot_id := (raw_pkt.getD 12 0).val * 256 + (raw_pkt.getD 13 0).val,
                 events := [] } := by
  have h14 : ¬ raw_len < eth.hdr_len := by
    show ¬ raw_len < 14
    omega
  unfold EthCodec.decode
  rw [if_neg h14, ether_type_eq raw_pkt (by omega)]
  rfl

/-- Below the header length `decode` reads nothing and reports the truncation. -/
theorem decode_of_short (min_ethertype PROTO_BIT__ETH : Nat) (raw_pkt : List Byte)
    (raw_len : Nat) (p : Packet) (lyr_len next_prot_id : Nat)
    (h : raw_len < eth.hdr_len) :
    EthCodec.decode min_ethertype PROTO_BIT__ETH raw_pkt raw_len p lyr_len next_prot_id
      = some { ret := false, p := p, lyr_len := lyr_len, next_prot_id := next_prot_id,
               events := [CodecSid.DECODE_ETH_HDR_TRUNC] } := by
  unfold EthCodec.decode
  rw [if_pos h]

/-! ## `EthCodec::decode` -/

/-- Claim C1: for every raw buffer and every `raw_len` below the fixed Ethernet header
length (14), `decode` returns false, calls `decoder_event` exactly once, with
`DECODE_ETH_HDR_TRUNC`, and leaves the packet (and both out-parameters) as they were. -/
theorem decode_truncated (min_ethertype PROTO_BIT__ETH : Nat) (raw_pkt : List Byte)
    (raw_len : Nat) (p : Packet) (lyr_len next_prot_id : Nat)
    (h : raw_len < eth.hdr_len) :
    EthCodec.decode min_ethertype PROTO_BIT__ETH raw_pkt raw_len p lyr_len next_prot_id
      = some { ret := false, p := p, lyr_len := lyr_len, next_prot_id := next_prot_id,
               events := [CodecSid.DECODE_ETH_HDR_TRUNC] } :=
  decode_of_short min_ethertype PROTO_BIT__ETH raw_pkt raw_len p lyr_len next_prot_id h

/-- Witness of C1: a 13-byte buffer (one byte short of a header). -/
theorem decode_truncated_witness :
    (13 : Nat) < eth.hdr_len ∧
    EthCodec.decode 1536 8 (List.replicate 13 0) 13 ⟨5, []⟩ 7 9
      = some { ret := false, p := ⟨5, []⟩, lyr_len := 7, next_prot_id := 9,
               events := [CodecSid.DECODE_ETH_HDR_TRUNC] } :=
  ⟨by decide, decode_truncated 1536 8 (List.replicate 13 0) 13 ⟨5, []⟩ 7 9 (by decide)⟩

/-- Claim C2: for every raw buffer that holds `raw_len >= 14` bytes and whose big-endian
type field `raw[12] * 256 + raw[13]` is above `eth::min_ethertype()`, `decode` returns
true, reports the consumed length 14, sets `next_prot_id` to the type value and ORs
`PROTO_BIT__ETH` into `proto_bits`, so that the bit is set afterwards. -/
theorem decode_advances (min_ethertype PROTO_BIT__ETH : Nat) (raw_pkt : List Byte)
    (raw_len : Nat) (p : Packet) (lyr_len next_prot_id : Nat)
    (hlen : 14 ≤ raw_len) (hbuf : raw_len ≤ raw_pkt.length)
    (hty : min_ethertype < (raw_pkt.getD 12 0).val * 256 + (raw_pkt.getD 13 0).val) :
    EthCodec.decode min_ethertype PROTO_BIT__ETH raw_pkt raw_len p lyr_len next_prot_id
      = some { ret := true,
               p := { p with proto_bits := p.proto_bits ||| PROTO_BIT__ETH },
               lyr_len := 14,
               next_prot_id := (raw_pkt.getD 12 0).val * 256 + (raw_pkt.getD 13 0).val,
               events := [] }
    ∧ (p.proto_bits ||| PROTO_BIT__ETH) &&& PROTO_BIT__ETH = PROTO_BIT__ETH := by
  refine ⟨?_, lor_land_self _ _⟩
  rw [decode_of_header min_ethertype PROTO_BIT__ETH raw_pkt raw_len p lyr_len next_prot_id
    hlen hbuf, if_pos hty]

/-- Witness of C2: the all-zero 14-byte frame with type `0x0800` decodes with length 14,
the flag set and `next_prot_id = 0x0800`; with the threshold at 1536, so does a frame
whose type is 1537. -/
theorem decode_advances_witness :
    EthCodec.decode 1536 8 frame_ipv4 14 ⟨0, []⟩ 0 0
      = some { ret := true, p := ⟨8, []⟩, lyr_len := 14, next_prot_id := 0x0800,
               events := [] }
    ∧ EthCodec.decode 1536 8 frame_above_threshold 14 ⟨0, []⟩ 0 0
      = some { ret := true, p := ⟨8, []⟩, lyr_len := 14, next_prot_id := 1537,
               events := [] } := by
  have h1 := (decode_advances 1536 8 frame_ipv4 14 ⟨0, []⟩ 0 0 (by decide) (by decide)
    (by decide)).1
  have h2 := (decode_advances 1536 8 frame_above_threshold 14 ⟨0, []⟩ 0 0 (by decide)
    (by decide) (by decide)).1
  exact ⟨by simpa [frame_ipv4] using h1, by simpa [frame_above_threshold] using h2⟩

/-- Claim C3: for every raw buffer of `raw_len >= 14` bytes whose big-endian type field is
at or below `eth::min_ethertype()`, `decode` returns false, leaves the packet (so the
Ethernet presence flag) and `lyr_len` as they were, and calls `decoder_event` not at all.
(`next_prot_id` holds the type value afterwards.) -/
theorem decode_low_type (min_ethertype PROTO_BIT__ETH : Nat) (raw_pkt : List Byte)
    (raw_len : Nat) (p : Packet) (lyr_len next_prot_id : Nat)
    (hlen : 14 ≤ raw_len) (hbuf : raw_len ≤ raw_pkt.length)
    (hty : (raw_pkt.getD 12 0).val * 256 + (raw_pkt.getD 13 0).val ≤ min_ethertype) :
    EthCodec.decode min_ethertype PROTO_BIT__ETH raw_pkt raw_len p lyr_len next_prot_id
      = some { ret := false, p := p, lyr_len := lyr_len,
               next_prot_id := (raw_pkt.getD 12 0).val * 256 + (raw_pkt.getD 13 0).val,
               events := [] } := by
  rw [decode_of_header min_ethertype PROTO_BIT__ETH raw_pkt raw_len p lyr_len next_prot_id
    hlen hbuf, if_neg (by omega)]

/-- Witness of C3: a type field exactly at the threshold does not advance. -/
theorem decode_low_type_witness :
    EthCodec.decode 1536 8 frame_at_threshold 14 ⟨0, []⟩ 3 4
      = some { ret := false, p := ⟨0, []⟩, lyr_len := 3, next_prot_id := 1536,
               events := [] } := by
  have h := decode_low_type 1536 8 frame_at_threshold 14 ⟨0, []⟩ 3 4 (by decide) (by decide)
    (by decide)
  simpa [frame_at_threshold] using h

/-- Cutting the buffer at `raw_len` does not change a byte below `raw_len`. -/
theorem getD_take_of_lt (raw : List Byte) (n i : Nat) (h : i < n) :
    (raw.take n).getD i 0 = raw.getD i 0 := by
  rw [List.getD_eq_getElem?_getD, List.getD_eq_getElem?_getD, List.getElem?_take_of_lt h]

/-- Claim C8: whenever `decode` returns true the consumed length `lyr_len` it reports is at
most `raw_len`, and so is the header length, so the header offsets 0..13 are below
`raw_len`; and when the buffer holds the `raw_len` bytes the caller announces, every read
of `decode` is defined and `decode` gives the same result on the buffer cut off at
`raw_len`: it reads no byte at or past `raw_len`. -/
theorem decode_within_raw_len (min_ethertype PROTO_BIT__ETH : Nat) (raw_pkt : List Byte)
    (raw_len : Nat) (p : Packet) (lyr_len next_prot_id : Nat) :
    (∀ r, EthCodec.decode min_ethertype PROTO_BIT__ETH raw_pkt raw_len p lyr_len next_prot_id
        = some r → r.ret = true → r.lyr_len ≤ raw_len ∧ eth.hdr_len ≤ raw_len)
    ∧ (raw_len ≤ raw_pkt.length →
        ∃ r, EthCodec.decode min_ethertype PROTO_BIT__ETH raw_pkt raw_len p lyr_len
            next_prot_id = some r
          ∧ EthCodec.decode min_ethertype PROTO_BIT__ETH (raw_pkt.take raw_len) raw_len p
            lyr_len next_prot_id = some r) := by
  constructor
  · intro r hr hret
    unfold EthCodec.decode at hr
    by_cases h : raw_len < eth.hdr_len
    · rw [if_pos h] at hr
      cases hr
      cases hret
    · rw [if_neg h] at hr
      have h14 : 14 ≤ raw_len := by
        have : ¬ raw_len < 14 := h
        omega
      cases hty : eth.ether_type raw_pkt with
      | none => rw [hty] at hr; cases hr
      | some ty =>
        rw [hty] at hr
        by_cases hgt : ntohs ty > min_ethertype
        · simp only [Option.bind, if_pos hgt] at hr
          cases hr
          exact ⟨h14, h14⟩
        · simp only [Option.bind, if_neg hgt] at hr
          cases hr
          cases hret
  · intro hbuf
    by_cases h : raw_len < eth.hdr_len
    · exact ⟨_, decode_of_short _ _ _ _ _ _ _ h, decode_of_short _ _ _ _ _ _ _ h⟩
    · have h14 : 14 ≤ raw_len := by
        have : ¬ raw_len < 14 := h
        omega
      have hcut : EthCodec.decode min_ethertype PROTO_BIT__ETH (raw_pkt.take raw_len) raw_len
          p lyr_len next_prot_id
          = EthCodec.decode min_ethertype PROTO_BIT__ETH raw_pkt raw_len p lyr_len
            next_prot_id := by
        rw [decode_of_header _ _ (raw_pkt.take raw_len) raw_len _ _ _ h14
          (by rw [List.length_take]; omega),
          getD_take_of_lt raw_pkt raw_len 12 (by omega),
          getD_take_of_lt raw_pkt raw_len 13 (by omega),
          decode_of_header _ _ raw_pkt raw_len _ _ _ h14 hbuf]
      rw [hcut, decode_of_header _ _ raw_pkt raw_len _ _ _ h14 hbuf]
      by_cases hgt : min_ethertype < (raw_pkt.getD 12 0).val * 256 + (raw_pkt.getD 13 0).val
      · rw [if_pos hgt]
        exact ⟨_, rfl, rfl⟩
      · rw [if_neg hgt]
        exact ⟨_, rfl, rfl⟩

/-- Witness of C8: a 17-byte buffer of which the caller announces 14 bytes. -/
theorem decode_within_raw_len_witness :
    (∀ r, EthCodec.decode 1536 8 (frame_ipv4 ++ [1, 2, 3]) 14 ⟨0, []⟩ 0 0 = some r →
        r.ret = true → r.lyr_len ≤ 14 ∧ eth.hdr_len ≤ 14)
    ∧ EthCodec.decode 1536 8 (frame_ipv4 ++ [1, 2, 3]) 14 ⟨0, []⟩ 0 0
        = some { ret := true, p := ⟨8, []⟩, lyr_len := 14, next_prot_id := 0x0800,
                 events := [] }
    ∧ EthCodec.decode 1536 8 ((frame_ipv4 ++ [1, 2, 3]).take 14) 14 ⟨0, []⟩ 0 0
        = some { ret := true, p := ⟨8, []⟩, lyr_len := 14, next_prot_id := 0x0800,
                 events := [] } := by
  have h := decode_within_raw_len 1536 8 (frame_ipv4 ++ [1, 2, 3]) 14 ⟨0, []⟩ 0 0
  refine ⟨h.1, ?_⟩
  obtain ⟨r, h1, h2⟩ := h.2 (by decide)
  have h0 : EthCodec.decode 1536 8 (frame_ipv4 ++ [1, 2, 3]) 14 ⟨0, []⟩ 0 0
      = some { ret := true, p := ⟨8, []⟩, lyr_len := 14, next_prot_id := 0x0800,
               events := [] } := by decide
  rw [h0] at h1
  cases h1
  exact ⟨h0, h2⟩

/-! ## The output buffer -/

/-- A store leaves the cursors, the base and the size of the buffer alone. -/
theorem store_fields (b : Buffer) (a : Nat) (bs : List Byte) :
    (b.store a bs).base = b.base ∧ (b.store a bs).off = b.off
      ∧ (b.store a bs).end_ = b.end_ ∧ (b.store a bs).size = b.size :=
  ⟨rfl, rfl, rfl, rfl⟩

/-- Reading back what was just stored. -/
theorem load_store_same (b : Buffer) (a : Nat) (bs : List Byte) :
    (b.store a bs).load a bs.length = bs := by
  apply List.ext_getElem
  · simp [Buffer.load]
  · intro i h1 h2
    simp [Buffer.load, Buffer.store, List.getElem?_eq_getElem h2]

/-- A store at or above the end of a range does not change the range. -/
theorem load_store_above (b : Buffer) (a a2 n : Nat) (bs : List Byte) (h : a2 + n ≤ a) :
    (b.store a bs).load a2 n = b.load a2 n := by
  apply List.ext_getElem
  · simp [Buffer.load]
  · intro i h1 h2
    have hi : i < n := by simpa [Buffer.load] using h1
    have hlt : ¬ a ≤ a2 + i := by omega
    simp [Buffer.load, Buffer.store, hlt]

/-- A store that ends at or below the start of a range does not change the range. -/
theorem load_store_below (b : Buffer) (a a2 n : Nat) (bs : List Byte)
    (h : a + bs.length ≤ a2) :
    (b.store a bs).load a2 n = b.load a2 n := by
  apply List.ext_getElem
  · simp [Buffer.load]
  · intro i h1 h2
    have hge : a ≤ a2 + i := by omega
    have hout : bs[a2 + i - a]? = none := List.getElem?_eq_none (by omega)
    simp [Buffer.load, Buffer.store, hge, hout]

/-- Consecutive ranges of the storage read as one. -/
theorem load_add (b : Buffer) (a m n : Nat) :
    b.load a (m + n) = b.load a m ++ b.load (a + m) n := by
  simp [Buffer.load, List.range_add, Nat.add_assoc]

/-- The three stores of a header at address `a`, read back field by field. -/
theorem load_header_fields (b : Buffer) (a : Nat) (ty src dst : List Byte)
    (hty : ty.length = 2) (hsrc : src.length = 6) (hdst : dst.length = 6) :
    (((b.store (a + 12) ty).store (a + 6) src).store (a + 0) dst).load a 6 = dst
    ∧ (((b.store (a + 12) ty).store (a + 6) src).store (a + 0) dst).load (a + 6) 6 = src
    ∧ (((b.store (a + 12) ty).store (a + 6) src).store (a + 0) dst).load (a + 12) 2 = ty := by
  refine ⟨?_, ?_, ?_⟩
  · have h := load_store_same ((b.store (a + 12) ty).store (a + 6) src) (a + 0) dst
    rw [hdst] at h
    exact h
  · rw [load_store_below _ (a + 0) (a + 6) 6 dst (by omega)]
    have h := load_store_same (b.store (a + 12) ty) (a + 6) src
    rw [hsrc] at h
    exact h
  · rw [load_store_below _ (a + 0) (a + 12) 2 dst (by omega),
      load_store_below _ (a + 6) (a + 12) 2 src (by omega)]
    have h := load_store_same b (a + 12) ty
    rw [hty] at h
    exact h

/-! ## `EthCodec::encode` -/

/-- The header is attempted after the alignment step exactly when raw mode is off or the
buffer handed to `encode` is non-empty. -/
theorem write_cond_align (raw : Nat) (out : Buffer) :
    (raw = 0 ∨ (EthCodec.encode_align raw out).off ≠ (EthCodec.encode_align raw out).end_)
      ↔ (raw = 0 ∨ out.off ≠ out.end_) := by
  by_cases h : raw = 0
  · simp [h]
  · have : EthCodec.encode_align raw out = out := by simp [EthCodec.encode_align, h]
    rw [this]

/-- When the header is attempted, the reservation succeeds and the template and the
override (if any) are long enough, `encode_hdr` returns true and the buffer holds the
three fields at `base`. -/
theorem encode_hdr_layout (forward : EncState → Bool)
    (update_buffer : Buffer → Nat → Bool × Buffer) (dst_mac : Option (List Byte))
    (raw : Nat) (enc : EncState) (out : Buffer) (raw_in : List Byte)
    (hw : raw = 0 ∨ out.off ≠ out.end_)
    (hu : (update_buffer out eth.sizeof_EtherHdr).1 = true)
    (hin : 14 ≤ raw_in.length) (hm : ∀ m, dst_mac = some m → 6 ≤ m.length) :
    ∃ out2, EthCodec.encode_hdr forward update_buffer dst_mac raw enc out raw_in
        = some (true, out2)
      ∧ out2.base = (update_buffer out eth.sizeof_EtherHdr).2.base
      ∧ out2.load (out2.base + 12) 2 = (raw_in.drop 12).take 2
      ∧ out2.load (out2.base + 6) 6
          = (if forward enc then (raw_in.drop 6).take 6 else raw_in.take 6)
      ∧ out2.load out2.base 6
          = (dst_mac.map (List.take 6)).getD
              (if forward enc then raw_in.take 6 else (raw_in.drop 6).take 6) := by
  have hty := length_drop_take raw_in 12 2 (by omega)
  have hsrc := length_drop_take raw_in 6 6 (by omega)
  have hdst := length_drop_take raw_in 0 6 (by omega)
  have hne : ¬ (update_buffer out eth.sizeof_EtherHdr).1 = false := by
    rw [hu]
    decide
  cases dst_mac with
  | none =>
    unfold EthCodec.encode_hdr
    rw [if_pos hw]
    simp only [if_neg hne]
    unfold eth.ether_type eth.ether_src eth.ether_dst eth.off_ether_type eth.off_ether_src
      eth.off_ether_dst eth.addr_len
    rw [readBytes_of_le raw_in 12 2 (by omega), readBytes_of_le raw_in 6 6 (by omega),
      readBytes_of_le raw_in 0 6 (by omega)]
    simp only [Option.bind]
    by_cases hf : forward enc = true
    · simp only [hf, if_true]
      have h := load_header_fields (update_buffer out eth.sizeof_EtherHdr).2
        (update_buffer out eth.sizeof_EtherHdr).2.base _ _ _ hty hsrc hdst
      exact ⟨_, rfl, rfl, h.2.2, h.2.1, by simpa using h.1⟩
    · simp only [hf, if_false]
      have h := load_header_fields (update_buffer out eth.sizeof_EtherHdr).2
        (update_buffer out eth.sizeof_EtherHdr).2.base _ _ _ hty hdst hsrc
      exact ⟨_, rfl, rfl, h.2.2, by simpa using h.2.1, by simpa using h.1⟩
  | some m =>
    have hml := hm m rfl
    have hmd := length_drop_take m 0 6 (by omega)
    unfold EthCodec.encode_hdr
    rw [if_pos hw]
    simp only [if_neg hne]
    unfold eth.ether_type eth.ether_src eth.ether_dst eth.off_ether_type eth.off_ether_src
      eth.off_ether_dst eth.addr_len
    rw [readBytes_of_le raw_in 12 2 (by omega), readBytes_of_le raw_in 6 6 (by omega),
      readBytes_of_le raw_in 0 6 (by omega), readBytes_of_le m 0 6 (by omega)]
    simp only [Option.bind]
    by_cases hf : forward enc = true
    · simp only [hf, if_true]
      have h := load_header_fields (update_buffer out eth.sizeof_EtherHdr).2
        (update_buffer out eth.sizeof_EtherHdr).2.base _ _ _ hty hsrc hmd
      exact ⟨_, rfl, rfl, h.2.2, h.2.1, by simpa using h.1⟩
    · simp only [hf, if_false]
      have h := load_header_fields (update_buffer out eth.sizeof_EtherHdr).2
        (update_buffer out eth.sizeof_EtherHdr).2.base _ _ _ hty hdst hmd
      exact ⟨_, rfl, rfl, h.2.2, by simpa using h.2.1, by simpa using h.1⟩

/-- The alignment step when raw mode is off and the buffer is empty. -/
theorem encode_align_of_empty (raw : Nat) (out : Buffer) (hraw : raw = 0)
    (hempty : out.off = out.end_) :
    EthCodec.encode_align raw out
      = { out with off := SPARC_TWIDDLE, end_ := SPARC_TWIDDLE } := by
  simp [EthCodec.encode_align, hraw, hempty]

/-- The alignment step when raw mode is on or the buffer is non-empty. -/
theorem encode_align_of_used (raw : Nat) (out : Buffer) (h : raw ≠ 0 ∨ out.off ≠ out.end_) :
    EthCodec.encode_align raw out = out := by
  unfold EthCodec.encode_align
  rw [if_neg]
  rintro ⟨h1, h2⟩
  rcases h with h | h
  · exact h h1
  · exact h h2

/-- `encode_hdr_layout` for `encode` itself. -/
theorem encode_layout (ENC_FLAG_RAW : Nat) (forward : EncState → Bool)
    (update_buffer : Buffer → Nat → Bool × Buffer) (dst_mac : Option (List Byte))
    (enc : EncState) (out : Buffer) (raw_in : List Byte)
    (hw : enc.flags &&& ENC_FLAG_RAW = 0 ∨ out.off ≠ out.end_)
    (hu : (update_buffer (EthCodec.encode_align (enc.flags &&& ENC_FLAG_RAW) out)
      eth.sizeof_EtherHdr).1 = true)
    (hin : 14 ≤ raw_in.length) (hm : ∀ m, dst_mac = some m → 6 ≤ m.length) :
    ∃ out2, EthCodec.encode ENC_FLAG_RAW forward update_buffer dst_mac enc out raw_in
        = some (true, out2)
      ∧ out2.base = (update_buffer (EthCodec.encode_align (enc.flags &&& ENC_FLAG_RAW) out)
          eth.sizeof_EtherHdr).2.base
      ∧ out2.load (out2.base + 12) 2 = (raw_in.drop 12).take 2
      ∧ out2.load (out2.base + 6) 6
          = (if forward enc then (raw_in.drop 6).take 6 else raw_in.take 6)
      ∧ out2.load out2.base 6
          = (dst_mac.map (List.take 6)).getD
              (if forward enc then raw_in.take 6 else (raw_in.drop 6).take 6) :=
  encode_hdr_layout forward update_buffer dst_mac (enc.flags &&& ENC_FLAG_RAW) enc
    (EthCodec.encode_align (enc.flags &&& ENC_FLAG_RAW) out) raw_in
    ((write_cond_align _ _).mpr hw) hu hin hm

/-- A frame `decode` accepts holds a whole header. -/
theorem decode_true_length (min_ethertype PROTO_BIT__ETH : Nat) (raw_pkt : List Byte)
    (raw_len : Nat) (p : Packet) (lyr_len next_prot_id : Nat) (r : DecodeResult)
    (hdec : EthCodec.decode min_ethertype PROTO_BIT__ETH raw_pkt raw_len p lyr_len
      next_prot_id = some r) (hret : r.ret = true) :
    14 ≤ raw_len ∧ 14 ≤ raw_pkt.length ∧ min_ethertype < r.next_prot_id := by
  unfold EthCodec.decode at hdec
  by_cases h : raw_len < eth.hdr_len
  · rw [if_pos h] at hdec
    cases hdec
    cases hret
  · rw [if_neg h] at hdec
    have h14 : 14 ≤ raw_len := by
      have : ¬ raw_len < 14 := h
      omega
    cases hty : eth.ether_type raw_pkt with
    | none => rw [hty] at hdec; cases hdec
    | some ty =>
      have hl := readBytes_some_le raw_pkt 12 2 ty hty
      rw [hty] at hdec
      by_cases hgt : ntohs ty > min_ethertype
      · simp only [Option.bind, if_pos hgt] at hdec
        cases hdec
        exact ⟨h14, hl, hgt⟩
      · simp only [Option.bind, if_neg hgt] at hdec
        cases hdec
        cases hret

/-- The first 14 bytes of a frame are its destination, source and type fields. -/
theorem take_header (raw : List Byte) :
    raw.take 6 ++ ((raw.drop 6).take 6 ++ (raw.drop 12).take 2) = raw.take 14 := by
  have h1 : raw.take 14 = raw.take 6 ++ (raw.drop 6).take 8 := List.take_add raw 6 8
  have h2 : (raw.drop 6).take 8 = (raw.drop 6).take 6 ++ ((raw.drop 6).drop 6).take 2 :=
    List.take_add (raw.drop 6) 6 2
  rw [h1, h2, List.drop_drop]

/-- Claim C4 (round trip): for every frame `decode` accepts, `encode` with that frame as
template, forward direction, raw mode off, no override destination MAC, an empty output
buffer and a successful `update_buffer` returns true, and the 14 bytes at the buffer's
`base` afterwards are the first 14 bytes of the frame. -/
theorem encode_decode_roundtrip (min_ethertype PROTO_BIT__ETH ENC_FLAG_RAW : Nat)
    (forward : EncState → Bool) (update_buffer : Buffer → Nat → Bool × Buffer)
    (raw_pkt : List Byte) (raw_len : Nat) (p : Packet) (lyr_len next_prot_id : Nat)
    (r : DecodeResult) (enc : EncState) (out : Buffer)
    (hdec : EthCodec.decode min_ethertype PROTO_BIT__ETH raw_pkt raw_len p lyr_len
      next_prot_id = some r) (hret : r.ret = true)
    (hfwd : forward enc = true) (hraw : enc.flags &&& ENC_FLAG_RAW = 0)
    (hempty : out.off = out.end_)
    (hupd : (update_buffer { out with off := SPARC_TWIDDLE, end_ := SPARC_TWIDDLE }
      eth.sizeof_EtherHdr).1 = true) :
    ∃ out2, EthCodec.encode ENC_FLAG_RAW forward update_buffer none enc out raw_pkt
        = some (true, out2)
      ∧ out2.base = (update_buffer { out with off := SPARC_TWIDDLE, end_ := SPARC_TWIDDLE }
          eth.sizeof_EtherHdr).2.base
      ∧ out2.load out2.base 14 = raw_pkt.take 14 := by
  have hl := (decode_true_length _ _ _ _ _ _ _ r hdec hret).2.1
  have ha := encode_align_of_empty (enc.flags &&& ENC_FLAG_RAW) out hraw hempty
  obtain ⟨out2, he, hb, hty, hsrc, hdst⟩ := encode_layout ENC_FLAG_RAW forward update_buffer
    none enc out raw_pkt (Or.inl hraw) (by rw [ha]; exact hupd) hl (by intro m hm; cases hm)
  refine ⟨out2, he, by rw [hb, ha], ?_⟩
  rw [if_pos hfwd] at hsrc
  simp only [Option.map_none', Option.getD_none, if_pos hfwd] at hdst
  have h1 : out2.load out2.base 14
      = out2.load out2.base 6 ++ out2.load (out2.base + 6) 8 := load_add out2 out2.base 6 8
  have h2 : out2.load (out2.base + 6) 8
      = out2.load (out2.base + 6) 6 ++ out2.load (out2.base + 6 + 6) 2 :=
    load_add out2 (out2.base + 6) 6 2
  rw [h1, h2, hdst, hsrc, Nat.add_assoc, hty]
  exact take_header raw_pkt

/-- Witness of C4: the sample header is decoded and encoded back into an empty buffer. -/
theorem encode_decode_roundtrip_witness :
    ∃ out2, EthCodec.encode 0x04000000 sample_forward sample_update_buffer none
        ⟨0x80000000⟩ sample_out sample_hdr = some (true, out2)
      ∧ out2.base = (sample_update_buffer
          { sample_out with off := SPARC_TWIDDLE, end_ := SPARC_TWIDDLE }
          eth.sizeof_EtherHdr).2.base
      ∧ out2.load out2.base 14 = sample_hdr.take 14 :=
  encode_decode_roundtrip 1536 8 0x04000000 sample_forward sample_update_buffer sample_hdr
    14 ⟨0, []⟩ 0 0 ⟨true, ⟨8, []⟩, 14, 0x0800, []⟩ ⟨0x80000000⟩ sample_out
    (by decide) rfl (by decide) (by decide) rfl (by decide)

/-- Claim C5: for every template header, when `encode` writes a header in the reverse
direction with no override destination MAC (the reservation succeeds), it returns true,
the encoded source address is the template's destination address and the encoded
destination address is the template's source address, all 6 bytes each. -/
theorem encode_reverse_swaps (ENC_FLAG_RAW : Nat) (forward : EncState → Bool)
    (update_buffer : Buffer → Nat → Bool × Buffer) (enc : EncState) (out : Buffer)
    (raw_in : List Byte)
    (hin : 14 ≤ raw_in.length) (hrev : forward enc = false)
    (hw : enc.flags &&& ENC_FLAG_RAW = 0 ∨ out.off ≠ out.end_)
    (hupd : (update_buffer (EthCodec.encode_align (enc.flags &&& ENC_FLAG_RAW) out)
      eth.sizeof_EtherHdr).1 = true) :
    ∃ out2, EthCodec.encode ENC_FLAG_RAW forward update_buffer none enc out raw_in
        = some (true, out2)
      ∧ out2.load (out2.base + eth.off_ether_src) 6 = raw_in.take 6
      ∧ out2.load (out2.base + eth.off_ether_dst) 6 = (raw_in.drop 6).take 6 := by
  obtain ⟨out2, he, _, _, hsrc, hdst⟩ := encode_layout ENC_FLAG_RAW forward update_buffer
    none enc out raw_in hw hupd hin (by intro m hm; cases hm)
  refine ⟨out2, he, ?_, ?_⟩
  · rw [hrev] at hsrc
    exact hsrc
  · rw [hrev] at hdst
    exact hdst

/-- Witness of C5: the sample header encoded in the reverse direction. -/
theorem encode_reverse_swaps_witness :
    ∃ out2, EthCodec.encode 0x04000000 sample_forward sample_update_buffer none
        ⟨0⟩ sample_out sample_hdr = some (true, out2)
      ∧ out2.load (out2.base + eth.off_ether_src) 6 = [1, 2, 3, 4, 5, 6]
      ∧ out2.load (out2.base + eth.off_ether_dst) 6 = [7, 8, 9, 10, 11, 12] :=
  encode_reverse_swaps 0x04000000 sample_forward sample_update_buffer ⟨0⟩ sample_out
    sample_hdr (by decide) (by decide) (Or.inl (by decide)) (by decide)

/-- Claim C6: for every template header and both directions, when an override destination
MAC is configured and `encode` writes a header, the encoded destination address is the
6 bytes of the override; the encoded source address is the template's source (forward) or the
template's destination (reverse). -/
theorem encode_override_dst (ENC_FLAG_RAW : Nat) (forward : EncState → Bool)
    (update_buffer : Buffer → Nat → Bool × Buffer) (dst_mac : List Byte) (enc : EncState)
    (out : Buffer) (raw_in : List Byte)
    (hin : 14 ≤ raw_in.length) (hmac : 6 ≤ dst_mac.length)
    (hw : enc.flags &&& ENC_FLAG_RAW = 0 ∨ out.off ≠ out.end_)
    (hupd : (update_buffer (EthCodec.encode_align (enc.flags &&& ENC_FLAG_RAW) out)
      eth.sizeof_EtherHdr).1 = true) :
    ∃ out2, EthCodec.encode ENC_FLAG_RAW forward update_buffer (some dst_mac) enc out raw_in
        = some (true, out2)
      ∧ out2.load (out2.base + eth.off_ether_dst) 6 = dst_mac.take 6
      ∧ out2.load (out2.base + eth.off_ether_src) 6
          = (if forward enc then (raw_in.drop 6).take 6 else raw_in.take 6) := by
  obtain ⟨out2, he, _, _, hsrc, hdst⟩ := encode_layout ENC_FLAG_RAW forward update_buffer
    (some dst_mac) enc out raw_in hw hupd hin
    (by intro m hm; cases hm; exact hmac)
  refine ⟨out2, he, ?_, hsrc⟩
  simp only [Option.map_some', Option.getD_some] at hdst
  exact hdst

/-- Witness of C6: the sample header encoded with an override, forward and reverse. -/
theorem encode_override_dst_witness :
    (∃ out2, EthCodec.encode 0x04000000 sample_forward sample_update_buffer (some sample_mac)
        ⟨0x80000000⟩ sample_out sample_hdr = some (true, out2)
      ∧ out2.load (out2.base + eth.off_ether_dst) 6 = sample_mac
      ∧ out2.load (out2.base + eth.off_ether_src) 6 = [7, 8, 9, 10, 11, 12])
    ∧ (∃ out2, EthCodec.encode 0x04000000 sample_forward sample_update_buffer
        (some sample_mac) ⟨0⟩ sample_out sample_hdr = some (true, out2)
      ∧ out2.load (out2.base + eth.off_ether_dst) 6 = sample_mac
      ∧ out2.load (out2.base + eth.off_ether_src) 6 = [1, 2, 3, 4, 5, 6]) :=
  ⟨encode_override_dst 0x04000000 sample_forward sample_update_buffer sample_mac
      ⟨0x80000000⟩ sample_out sample_hdr (by decide) (by decide) (Or.inl (by decide))
      (by decide),
   encode_override_dst 0x04000000 sample_forward sample_update_buffer sample_mac
      ⟨0⟩ sample_out sample_hdr (by decide) (by decide) (Or.inl (by decide)) (by decide)⟩

/-- Claim C7: for every template header, every direction and with or without an override
destination MAC, whenever `encode` writes a header the two bytes of the encoded EtherType
field are the two bytes of the template's EtherType field, in the same order. -/
theorem encode_copies_ether_type (ENC_FLAG_RAW : Nat) (forward : EncState → Bool)
    (update_buffer : Buffer → Nat → Bool × Buffer) (dst_mac : Option (List Byte))
    (enc : EncState) (out : Buffer) (raw_in : List Byte)
    (hin : 14 ≤ raw_in.length) (hm : ∀ m, dst_mac = some m → 6 ≤ m.length)
    (hw : enc.flags &&& ENC_FLAG_RAW = 0 ∨ out.off ≠ out.end_)
    (hupd : (update_buffer (EthCodec.encode_align (enc.flags &&& ENC_FLAG_RAW) out)
      eth.sizeof_EtherHdr).1 = true) :
    ∃ out2, EthCodec.encode ENC_FLAG_RAW forward update_buffer dst_mac enc out raw_in
        = some (true, out2)
      ∧ some (out2.load (out2.base + eth.off_ether_type) 2) = eth.ether_type raw_in := by
  obtain ⟨out2, he, _, hty, _, _⟩ := encode_layout ENC_FLAG_RAW forward update_buffer
    dst_mac enc out raw_in hw hupd hin hm
  refine ⟨out2, he, ?_⟩
  have h : eth.ether_type raw_in = some ((raw_in.drop 12).take 2) :=
    readBytes_of_le raw_in 12 2 (by omega)
  rw [h]
  exact congrArg some hty

/-- Witness of C7: the type bytes `08 00` of the sample header, in a reverse encode with
an override address. -/
theorem encode_copies_ether_type_witness :
    ∃ out2, EthCodec.encode 0x04000000 sample_forward sample_update_buffer (some sample_mac)
        ⟨0⟩ sample_out sample_hdr = some (true, out2)
      ∧ some (out2.load (out2.base + eth.off_ether_type) 2) = eth.ether_type sample_hdr :=
  encode_copies_ether_type 0x04000000 sample_forward sample_update_buffer (some sample_mac)
    ⟨0⟩ sample_out sample_hdr (by decide) (by intro m hm; cases hm; decide)
    (Or.inl (by decide)) (by decide)

/-- When the header is attempted and the reservation fails, `encode_hdr` returns false
with the buffer as `update_buffer` left it. -/
theorem encode_hdr_refused (forward : EncState → Bool)
    (update_buffer : Buffer → Nat → Bool × Buffer) (dst_mac : Option (List Byte))
    (raw : Nat) (enc : EncState) (out : Buffer) (raw_in : List Byte)
    (hw : raw = 0 ∨ out.off ≠ out.end_)
    (hu : (update_buffer out eth.sizeof_EtherHdr).1 = false) :
    EthCodec.encode_hdr forward update_buffer dst_mac raw enc out raw_in
      = some (false, (update_buffer out eth.sizeof_EtherHdr).2) := by
  unfold EthCodec.encode_hdr
  rw [if_pos hw]
  simp only [if_pos hu]

/-- When raw mode is on and the buffer is empty, `encode_hdr` does nothing. -/
theorem encode_hdr_skipped (forward : EncState → Bool)
    (update_buffer : Buffer → Nat → Bool × Buffer) (dst_mac : Option (List Byte))
    (raw : Nat) (enc : EncState) (out : Buffer) (raw_in : List Byte)
    (hw : ¬ (raw = 0 ∨ out.off ≠ out.end_)) :
    EthCodec.encode_hdr forward update_buffer dst_mac raw enc out raw_in
      = some (true, out) := by
  unfold EthCodec.encode_hdr
  rw [if_neg hw]

/-- Claim C9: when raw mode is off and the output buffer is empty, `encode` sets both
cursors to `SPARC_TWIDDLE` before it reserves the header (the buffer `update_buffer` gets
has `off = end = SPARC_TWIDDLE` and is otherwise the caller's), and `SPARC_TWIDDLE` plus
the Ethernet header length is a multiple of 4; when raw mode is on or the buffer is
non-empty, the header step runs on the caller's buffer as it is. -/
theorem encode_alignment_pad (ENC_FLAG_RAW : Nat) (forward : EncState → Bool)
    (update_buffer : Buffer → Nat → Bool × Buffer) (dst_mac : Option (List Byte))
    (enc : EncState) (out : Buffer) (raw_in : List Byte) :
    (enc.flags &&& ENC_FLAG_RAW = 0 → out.off = out.end_ →
      EthCodec.encode ENC_FLAG_RAW forward update_buffer dst_mac enc out raw_in
        = EthCodec.encode_hdr forward update_buffer dst_mac (enc.flags &&& ENC_FLAG_RAW) enc
            { out with off := SPARC_TWIDDLE, end_ := SPARC_TWIDDLE } raw_in
      ∧ EthCodec.encode ENC_FLAG_RAW forward refusing_update_buffer dst_mac enc out raw_in
        = some (false, { out with off := SPARC_TWIDDLE, end_ := SPARC_TWIDDLE })
      ∧ (SPARC_TWIDDLE + eth.hdr_len) % 4 = 0)
    ∧ ((enc.flags &&& ENC_FLAG_RAW ≠ 0 ∨ out.off ≠ out.end_) →
      EthCodec.encode ENC_FLAG_RAW forward update_buffer dst_mac enc out raw_in
        = EthCodec.encode_hdr forward update_buffer dst_mac (enc.flags &&& ENC_FLAG_RAW) enc
            out raw_in
      ∧ ∃ b, EthCodec.encode ENC_FLAG_RAW forward refusing_update_buffer dst_mac enc out
          raw_in = some (b, out)) := by
  constructor
  · intro hraw hempty
    have ha := encode_align_of_empty (enc.flags &&& ENC_FLAG_RAW) out hraw hempty
    refine ⟨?_, ?_, by decide⟩
    · unfold EthCodec.encode
      simp only [ha]
    · unfold EthCodec.encode
      simp only [ha]
      exact encode_hdr_refused forward refusing_update_buffer dst_mac _ enc _ raw_in
        (Or.inl hraw) rfl
  · intro h
    have ha := encode_align_of_used (enc.flags &&& ENC_FLAG_RAW) out h
    refine ⟨?_, ?_⟩
    · unfold EthCodec.encode
      simp only [ha]
    · unfold EthCodec.encode
      simp only [ha]
      by_cases hw : enc.flags &&& ENC_FLAG_RAW = 0 ∨ out.off ≠ out.end_
      · exact ⟨false, encode_hdr_refused forward refusing_update_buffer dst_mac _ enc out
          raw_in hw rfl⟩
      · exact ⟨true, encode_hdr_skipped forward refusing_update_buffer dst_mac _ enc out
          raw_in hw⟩

/-- Witness of C9: the empty sample buffer gets the pad, the used one does not. -/
theorem encode_alignment_pad_witness :
    (EthCodec.encode 0x04000000 sample_forward refusing_update_buffer none ⟨0⟩ sample_out
        sample_hdr
        = some (false, { sample_out with off := SPARC_TWIDDLE, end_ := SPARC_TWIDDLE })
      ∧ (SPARC_TWIDDLE + eth.hdr_len) % 4 = 0)
    ∧ ∃ b, EthCodec.encode 0x04000000 sample_forward refusing_update_buffer none ⟨0⟩
        sample_out_used sample_hdr = some (b, sample_out_used) :=
  ⟨((encode_alignment_pad 0x04000000 sample_forward sample_update_buffer none ⟨0⟩ sample_out
      sample_hdr).1 (by decide) (by decide)).2,
   ((encode_alignment_pad 0x04000000 sample_forward sample_update_buffer none ⟨0⟩
      sample_out_used sample_hdr).2 (Or.inr (by decide))).2⟩

/-- Claim C10: `encode` returns false exactly when it attempts the header (raw mode off,
or buffer non-empty) and `update_buffer` fails to reserve `sizeof(EtherHdr)` bytes; then
the buffer is as `update_buffer` left it, no header byte stored. In every other case it
returns true. -/
theorem encode_false_iff (ENC_FLAG_RAW : Nat) (forward : EncState → Bool)
    (update_buffer : Buffer → Nat → Bool × Buffer) (dst_mac : Option (List Byte))
    (enc : EncState) (out : Buffer) (raw_in : List Byte)
    (hin : 14 ≤ raw_in.length) (hm : ∀ m, dst_mac = some m → 6 ≤ m.length) :
    ∃ b out2, EthCodec.encode ENC_FLAG_RAW forward update_buffer dst_mac enc out raw_in
        = some (b, out2)
      ∧ (b = false ↔
          ((enc.flags &&& ENC_FLAG_RAW = 0 ∨ out.off ≠ out.end_)
            ∧ (update_buffer (EthCodec.encode_align (enc.flags &&& ENC_FLAG_RAW) out)
                eth.sizeof_EtherHdr).1 = false))
      ∧ (b = false →
          out2 = (update_buffer (EthCodec.encode_align (enc.flags &&& ENC_FLAG_RAW) out)
            eth.sizeof_EtherHdr).2) := by
  by_cases hw : enc.flags &&& ENC_FLAG_RAW = 0 ∨ out.off ≠ out.end_
  · cases hu : (update_buffer (EthCodec.encode_align (enc.flags &&& ENC_FLAG_RAW) out)
        eth.sizeof_EtherHdr).1 with
    | false =>
      refine ⟨false, _, ?_, ⟨fun _ => ⟨hw, rfl⟩, fun _ => rfl⟩, fun _ => rfl⟩
      exact encode_hdr_refused forward update_buffer dst_mac _ enc _ raw_in
        ((write_cond_align _ _).mpr hw) hu
    | true =>
      obtain ⟨out2, he, _⟩ := encode_layout ENC_FLAG_RAW forward update_buffer dst_mac enc
        out raw_in hw hu hin hm
      refine ⟨true, out2, he, ⟨fun h => ?_, fun h => ?_⟩, fun h => ?_⟩
      · cases h
      · cases h.2
      · cases h
  · refine ⟨true, out, ?_, ⟨fun h => ?_, fun h => ?_⟩, fun h => ?_⟩
    · exact encode_hdr_skipped forward update_buffer dst_mac _ enc _ raw_in
        (fun h => hw ((write_cond_align _ _).mp h)) |>.trans (by
          rw [encode_align_of_used _ out (by
            rcases not_or.mp hw with ⟨h1, _⟩
            exact Or.inl h1)])
    · cases h
    · exact absurd h.1 hw
    · cases h

/-- Witness of C10: with no room for the header `encode` returns false, and the buffer
is the padded buffer `update_buffer` refused, nothing stored. -/
theorem encode_false_iff_witness :
    EthCodec.encode 0x04000000 sample_forward sample_update_buffer none ⟨0⟩
        sample_out_small sample_hdr
      = some (false, { sample_out_small with off := SPARC_TWIDDLE, end_ := SPARC_TWIDDLE }) := by
  obtain ⟨b, out2, he, hiff, hout⟩ := encode_false_iff 0x04000000 sample_forward
    sample_update_buffer none ⟨0⟩ sample_out_small sample_hdr (by decide)
    (by intro m hm; cases hm)
  have hb : b = false := hiff.mpr ⟨Or.inl (by decide), by decide⟩
  rw [he, hb, hout hb]
  rfl

/-! ## `EthCodec::update` -/

/-- Claim C11, as the code has it: for every layer and every accumulated length `len`,
`update` returns true and leaves the accumulated length equal to `len` plus the length
recorded in the layer it is given (`lyr->length`), modulo `2^32`; that is `len + 14`
modulo `2^32` when the layer records the fixed Ethernet header length. The packet and the
layer are left as they were. -/
theorem update_adds_layer_length (p : Packet) (lyr : Layer) (len : Nat) :
    EthCodec.update p lyr len
      = { ret := true, p := p, lyr := lyr, len := (len + lyr.length) % 2 ^ 32 }
    ∧ (lyr.length = eth.hdr_len →
        (EthCodec.update p lyr len).len = (len + 14) % 2 ^ 32) := by
  refine ⟨rfl, fun h => ?_⟩
  show (len + lyr.length) % 2 ^ 32 = (len + 14) % 2 ^ 32
  rw [h]
  rfl

/-- Witness of C11: a 14-byte layer added to a length that wraps around `2^32`. -/
theorem update_adds_layer_length_witness :
    EthCodec.update sample_orig ⟨sample_hdr, 14⟩ 4294967290
      = { ret := true, p := sample_orig, lyr := ⟨sample_hdr, 14⟩, len := 8 }
    ∧ (EthCodec.update sample_orig ⟨sample_hdr, 14⟩ 4294967290).len
        = (4294967290 + 14) % 2 ^ 32 :=
  ⟨(update_adds_layer_length sample_orig ⟨sample_hdr, 14⟩ 4294967290).1,
   (update_adds_layer_length sample_orig ⟨sample_hdr, 14⟩ 4294967290).2 rfl⟩

/-- Counterexample to C11 as stated: for a layer that records 18 bytes, `update` adds 18
to the accumulated length, not the fixed header length 14. -/
theorem update_adds_hdr_len_counterexample :
    (EthCodec.update sample_orig ⟨sample_hdr ++ [0x81, 0x00, 0x00, 0x01], 18⟩ 100).len = 118
    ∧ (EthCodec.update sample_orig ⟨sample_hdr ++ [0x81, 0x00, 0x00, 0x01], 18⟩ 100).len
        ≠ (100 + eth.hdr_len) % 2 ^ 32 := by
  decide

/-! ## `EthCodec::format` -/

/-- A store that fits. -/
theorem writeBytes_of_le (raw : List Byte) (off : Nat) (bytes : List Byte)
    (h : off + bytes.length ≤ raw.length) :
    writeBytes raw off bytes
      = some (raw.take off ++ bytes ++ raw.drop (off + bytes.length)) := by
  simp [writeBytes, h]

/-- The two stores of `format` into the clone's header `ch`: the result is the new
destination, the new source and the rest of `ch` from offset 12 on. -/
theorem write_addresses (ch src dst : List Byte) (hch : 12 ≤ ch.length)
    (hsrc : src.length = 6) (hdst : dst.length = 6) :
    (writeBytes ch eth.off_ether_dst src).bind (fun ch1 =>
        writeBytes ch1 eth.off_ether_src dst)
      = some (src ++ (dst ++ ch.drop 12)) := by
  unfold eth.off_ether_dst eth.off_ether_src
  rw [writeBytes_of_le ch 0 src (by omega)]
  simp only [Option.bind, List.take_zero, List.nil_append, Nat.zero_add, hsrc]
  rw [writeBytes_of_le _ 6 dst (by simp only [List.length_append, List.length_drop]; omega)]
  congr 1
  rw [hdst, List.take_left' hsrc, List.drop_append_eq_append_drop, hsrc,
    List.drop_of_length_le (by omega : src.length ≤ 6 + 6), List.nil_append,
    List.drop_drop, List.append_assoc]

/-- In the reverse direction `format` replaces the clone's layer `i` by the original's
source, the original's destination and the clone's own bytes from offset 12 on. -/
theorem format_reverse_eq (reverse : Nat → Bool) (f : Nat) (p c : Packet) (i : Nat)
    (pl cl : Layer) (hf : reverse f = true) (hp : p.layers[i]? = some pl)
    (hc : c.layers[i]? = some cl) (hpl : 12 ≤ pl.start.length)
    (hcl : 12 ≤ cl.start.length) :
    EthCodec.format reverse f p c i
      = some ⟨p, ⟨c.proto_bits, c.layers.set i
          ⟨(pl.start.drop 6).take 6 ++ (pl.start.take 6 ++ cl.start.drop 12), cl.length⟩⟩⟩ := by
  have hs := length_drop_take pl.start 6 6 (by omega)
  have hd := length_drop_take pl.start 0 6 (by omega)
  have hw := write_addresses cl.start _ _ hcl hs hd
  unfold EthCodec.format
  rw [hc, hp]
  simp only [Option.bind, hf, if_true]
  unfold eth.ether_src eth.ether_dst eth.off_ether_src eth.off_ether_dst eth.addr_len
  rw [readBytes_of_le pl.start 6 6 (by omega), readBytes_of_le pl.start 0 6 (by omega)]
  simp only [Option.bind] at hw ⊢
  unfold eth.off_ether_dst eth.off_ether_src at hw
  cases h1 : writeBytes cl.start 0 (List.take 6 (List.drop 6 pl.start)) with
  | none => rw [h1] at hw; cases hw
  | some ch1 =>
    rw [h1] at hw
    simp only at hw ⊢
    rw [hw]
    simp

/-- Claim C12: for every flags value without the reverse flag, every original packet,
every clone and every layer of the clone, `format` returns with the clone (so the
layer's destination, source and EtherType bytes) and the original packet unchanged. -/
theorem format_forward_noop (reverse : Nat → Bool) (f : Nat) (p c : Packet) (i : Nat)
    (hf : reverse f = false) (hi : i < c.layers.length) :
    EthCodec.format reverse f p c i = some { p := p, c := c } := by
  unfold EthCodec.format
  rw [List.getElem?_eq_getElem hi]
  simp only [Option.bind, hf]
  rfl

/-- Witness of C12: the sample packet and its copy, forward flag set. -/
theorem format_forward_noop_witness :
    EthCodec.format sample_reverse 0x80000000 sample_orig sample_orig 0
      = some { p := sample_orig, c := sample_orig } :=
  format_forward_noop sample_reverse 0x80000000 sample_orig sample_orig 0 (by decide)
    (by decide)

/-- Claim C13: with the reverse flag set, `format` on the clone's layer at index `i` reads
the original's layer at the same index `i`; afterwards the clone's destination address is
the original's source address and the clone's source address is the original's
destination address, the clone's bytes from offset 12 on (the EtherType first) and its
other layers and presence bits are as before, and the original packet is unchanged. -/
theorem format_reverse_swaps (reverse : Nat → Bool) (f : Nat) (p c : Packet) (i : Nat)
    (pl cl : Layer) (hf : reverse f = true) (hp : p.layers[i]? = some pl)
    (hc : c.layers[i]? = some cl) (hpl : 12 ≤ pl.start.length)
    (hcl : 12 ≤ cl.start.length) :
    ∃ c2 cl2, EthCodec.format reverse f p c i = some { p := p, c := c2 }
      ∧ c2.proto_bits = c.proto_bits
      ∧ c2.layers = c.layers.set i cl2
      ∧ cl2.length = cl.length
      ∧ eth.ether_dst cl2.start = eth.ether_src pl.start
      ∧ eth.ether_src cl2.start = eth.ether_dst pl.start
      ∧ cl2.start.drop 12 = cl.start.drop 12
      ∧ eth.ether_type cl2.start = eth.ether_type cl.start := by
  have hs := length_drop_take pl.start 6 6 (by omega)
  have hd : (pl.start.take 6).length = 6 := by
    rw [List.length_take]
    omega
  refine ⟨_, _, format_reverse_eq reverse f p c i pl cl hf hp hc hpl hcl, rfl, rfl, rfl,
    ?_, ?_, ?_, ?_⟩
  · unfold eth.ether_dst eth.ether_src eth.off_ether_dst eth.off_ether_src eth.addr_len
    rw [readBytes_of_le pl.start 6 6 (by omega),
      readBytes_of_le _ 0 6 (by simp only [List.length_append]; omega)]
    simp only [List.drop_zero]
    rw [List.take_left' hs]
  · unfold eth.ether_dst eth.ether_src eth.off_ether_dst eth.off_ether_src eth.addr_len
    rw [readBytes_of_le pl.start 0 6 (by omega),
      readBytes_of_le _ 6 6 (by simp only [List.length_append]; omega)]
    simp only [List.drop_zero]
    rw [List.drop_left' hs, List.take_left' hd]
  · show List.drop 12 (_ ++ (_ ++ _)) = _
    rw [← List.append_assoc, List.drop_left' (by rw [List.length_append]; omega)]
  · unfold eth.ether_type eth.off_ether_type readBytes
    have hlen : ((pl.start.drop 6).take 6 ++ (pl.start.take 6 ++ cl.start.drop 12)).length
        = cl.start.length := by
      simp only [List.length_append, List.length_drop, hs, hd]
      omega
    have hdrop : List.drop 12 ((pl.start.drop 6).take 6 ++ (pl.start.take 6 ++ cl.start.drop 12))
        = cl.start.drop 12 := by
      rw [← List.append_assoc, List.drop_left' (by rw [List.length_append]; omega)]
    simp only [hlen, hdrop]

/-- Witness of C13: the sample clone formatted against the sample original. -/
theorem format_reverse_swaps_witness :
    ∃ c2 cl2, EthCodec.format sample_reverse 0 sample_orig sample_clone 0
        = some { p := sample_orig, c := c2 }
      ∧ c2.proto_bits = sample_clone.proto_bits
      ∧ c2.layers = sample_clone.layers.set 0 cl2
      ∧ cl2.length = 14
      ∧ eth.ether_dst cl2.start = eth.ether_src sample_hdr
      ∧ eth.ether_src cl2.start = eth.ether_dst sample_hdr
      ∧ cl2.start.drop 12 = [0x86, 0xdd]
      ∧ eth.ether_type cl2.start = some [0x86, 0xdd] :=
  format_reverse_swaps sample_reverse 0 sample_orig sample_clone 0 ⟨sample_hdr, 14⟩
    ⟨[21, 22, 23, 24, 25, 26, 27, 28, 29, 30, 31, 32, 0x86, 0xdd], 14⟩
    (by decide) (by decide) (by decide) (by decide) (by decide)

/-! ## Raw mode and the two reply paths -/

/-- On a non-empty buffer the header step does not depend on the raw flag, and on the
encode state only through the direction. -/
theorem encode_hdr_nonempty (forward : EncState → Bool)
    (update_buffer : Buffer → Nat → Bool × Buffer) (dst_mac : Option (List Byte))
    (raw raw2 : Nat) (enc enc2 : EncState) (out : Buffer) (raw_in : List Byte)
    (hne : out.off ≠ out.end_) (hfw : forward enc2 = forward enc) :
    EthCodec.encode_hdr forward update_buffer dst_mac raw2 enc2 out raw_in
      = EthCodec.encode_hdr forward update_buffer dst_mac raw enc out raw_in := by
  unfold EthCodec.encode_hdr
  rw [if_pos (Or.inr hne), if_pos (Or.inr hne), hfw]

/-- Claim C15: with the raw flag set and an empty output buffer `encode` stores nothing,
returns the buffer as it got it and returns true; with the raw flag set and a non-empty
buffer it runs the header step on the caller's buffer, without the alignment pad, with
the same result as with the raw flag clear, and (the reservation succeeding) the 14-byte
header is at `base`. -/
theorem encode_raw_mode (ENC_FLAG_RAW : Nat) (forward : EncState → Bool)
    (update_buffer : Buffer → Nat → Bool × Buffer) (dst_mac : Option (List Byte))
    (enc : EncState) (out : Buffer) (raw_in : List Byte)
    (hraw : enc.flags &&& ENC_FLAG_RAW ≠ 0) :
    (out.off = out.end_ →
      EthCodec.encode ENC_FLAG_RAW forward update_buffer dst_mac enc out raw_in
        = some (true, out))
    ∧ (out.off ≠ out.end_ →
      (∀ enc2 : EncState, enc2.flags &&& ENC_FLAG_RAW = 0 → forward enc2 = forward enc →
        EthCodec.encode ENC_FLAG_RAW forward update_buffer dst_mac enc2 out raw_in
          = EthCodec.encode ENC_FLAG_RAW forward update_buffer dst_mac enc out raw_in)
      ∧ (14 ≤ raw_in.length → (∀ m, dst_mac = some m → 6 ≤ m.length) →
          (update_buffer out eth.sizeof_EtherHdr).1 = true →
          ∃ out2, EthCodec.encode ENC_FLAG_RAW forward update_buffer dst_mac enc out raw_in
              = some (true, out2)
            ∧ out2.base = (update_buffer out eth.sizeof_EtherHdr).2.base
            ∧ out2.load (out2.base + 12) 2 = (raw_in.drop 12).take 2
            ∧ out2.load (out2.base + 6) 6
                = (if forward enc then (raw_in.drop 6).take 6 else raw_in.take 6)
            ∧ out2.load out2.base 6
                = (dst_mac.map (List.take 6)).getD
                    (if forward enc then raw_in.take 6 else (raw_in.drop 6).take 6))) := by
  have ha : EthCodec.encode_align (enc.flags &&& ENC_FLAG_RAW) out = out :=
    encode_align_of_used _ out (Or.inl hraw)
  refine ⟨fun hempty => ?_, fun hne => ⟨fun enc2 hraw2 hfw => ?_, fun hin hm hu => ?_⟩⟩
  · unfold EthCodec.encode
    simp only [ha]
    exact encode_hdr_skipped forward update_buffer dst_mac _ enc out raw_in
      (fun h => h.elim hraw (fun h2 => h2 hempty))
  · unfold EthCodec.encode
    simp only [ha, encode_align_of_used (enc2.flags &&& ENC_FLAG_RAW) out (Or.inr hne)]
    exact encode_hdr_nonempty forward update_buffer dst_mac _ _ enc enc2 out raw_in hne hfw
  · have h := encode_layout ENC_FLAG_RAW forward update_buffer dst_mac enc out raw_in
      (Or.inr hne) (by rw [ha]; exact hu) hin hm
    rw [ha] at h
    exact h

/-- Witness of C15: raw flag set, on the empty and on the used sample buffer. -/
theorem encode_raw_mode_witness :
    EthCodec.encode 0x04000000 sample_forward sample_update_buffer none ⟨0x04000000⟩
        sample_out sample_hdr = some (true, sample_out)
    ∧ ∃ out2, EthCodec.encode 0x04000000 sample_forward sample_update_buffer none
          ⟨0x04000000⟩ sample_out_used sample_hdr = some (true, out2)
        ∧ out2.base = (sample_update_buffer sample_out_used eth.sizeof_EtherHdr).2.base
        ∧ out2.load (out2.base + 12) 2 = [0x08, 0x00]
        ∧ out2.load (out2.base + 6) 6 = [1, 2, 3, 4, 5, 6]
        ∧ out2.load out2.base 6 = [7, 8, 9, 10, 11, 12] :=
  ⟨(encode_raw_mode 0x04000000 sample_forward sample_update_buffer none ⟨0x04000000⟩
      sample_out sample_hdr (by decide)).1 (by decide),
   ((encode_raw_mode 0x04000000 sample_forward sample_update_buffer none ⟨0x04000000⟩
      sample_out_used sample_hdr (by decide)).2 (by decide)).2 (by decide)
      (by intro m hm; cases hm) (by decide)⟩

/-- Claim C17: for every 14-byte original header `h` and no override destination MAC, the
header a successful reverse `encode` writes from the template `h` is byte for byte the
header `format` with the reverse flag leaves in a clone's layer that was an exact copy of
`h`, formatted against the original `h` at the same layer index: the source of `h`, the
destination of `h`, the EtherType of `h`. -/
theorem encode_reverse_eq_format_reverse (ENC_FLAG_RAW : Nat) (forward : EncState → Bool)
    (update_buffer : Buffer → Nat → Bool × Buffer) (reverse : Nat → Bool)
    (enc : EncState) (f : Nat) (out : Buffer) (h : List Byte) (p c : Packet) (i : Nat)
    (pl cl : Layer)
    (hh : h.length = 14) (hp : p.layers[i]? = some pl) (hpl : pl.start = h)
    (hc : c.layers[i]? = some cl) (hcl : cl.start = h)
    (hrev : forward enc = false) (hf : reverse f = true)
    (hw : enc.flags &&& ENC_FLAG_RAW = 0 ∨ out.off ≠ out.end_)
    (hupd : (update_buffer (EthCodec.encode_align (enc.flags &&& ENC_FLAG_RAW) out)
      eth.sizeof_EtherHdr).1 = true) :
    ∃ out2 c2 cl2,
      EthCodec.encode ENC_FLAG_RAW forward update_buffer none enc out h = some (true, out2)
      ∧ EthCodec.format reverse f p c i = some { p := p, c := c2 }
      ∧ c2.layers[i]? = some cl2
      ∧ out2.load out2.base 14 = cl2.start
      ∧ cl2.start = (h.drop 6).take 6 ++ (h.take 6 ++ (h.drop 12).take 2) := by
  obtain ⟨out2, he, _, hty, hsrc, hdst⟩ := encode_layout ENC_FLAG_RAW forward update_buffer
    none enc out h hw hupd (by omega) (by intro m hm; cases hm)
  have hfmt := format_reverse_eq reverse f p c i pl cl hf hp hc (by rw [hpl]; omega)
    (by rw [hcl]; omega)
  have hi : i < c.layers.length := by
    rcases Nat.lt_or_ge i c.layers.length with hlt | hge
    · exact hlt
    · rw [List.getElem?_eq_none hge] at hc
      cases hc
  have htail : h.drop 12 = (h.drop 12).take 2 := by
    rw [List.take_of_length_le]
    rw [List.length_drop]
    omega
  refine ⟨out2, _, ⟨(pl.start.drop 6).take 6 ++ (pl.start.take 6 ++ cl.start.drop 12),
    cl.length⟩, he, hfmt, ?_, ?_, ?_⟩
  · show (c.layers.set i _)[i]? = _
    rw [List.getElem?_set_self hi]
  · rw [hrev] at hsrc
    simp only [Option.map_none', Option.getD_none, hrev] at hdst
    have h1 : out2.load out2.base 14
        = out2.load out2.base 6 ++ out2.load (out2.base + 6) 8 := load_add out2 out2.base 6 8
    have h2 : out2.load (out2.base + 6) 8
        = out2.load (out2.base + 6) 6 ++ out2.load (out2.base + 6 + 6) 2 :=
      load_add out2 (out2.base + 6) 6 2
    rw [h1, h2, hdst, hsrc, Nat.add_assoc, hty, hpl, hcl]
    simp only [Bool.false_eq_true, if_false]
    rw [← htail]
  · show (pl.start.drop 6).take 6 ++ (pl.start.take 6 ++ cl.start.drop 12) = _
    rw [hpl, hcl, ← htail]

/-- Witness of C17: the sample header encoded in reverse, and its copy formatted. -/
theorem encode_reverse_eq_format_reverse_witness :
    ∃ out2 c2 cl2,
      EthCodec.encode 0x04000000 sample_forward sample_update_buffer none ⟨0⟩ sample_out
          sample_hdr = some (true, out2)
      ∧ EthCodec.format sample_reverse 0 sample_orig sample_orig 0
          = some { p := sample_orig, c := c2 }
      ∧ c2.layers[0]? = some cl2
      ∧ out2.load out2.base 14 = cl2.start
      ∧ cl2.start = (sample_hdr.drop 6).take 6
          ++ (sample_hdr.take 6 ++ (sample_hdr.drop 12).take 2) :=
  encode_reverse_eq_format_reverse 0x04000000 sample_forward sample_update_buffer
    sample_reverse ⟨0⟩ 0 sample_out sample_hdr sample_orig sample_orig 0
    ⟨sample_hdr, 14⟩ ⟨sample_hdr, 14⟩ (by decide) (by decide) rfl (by decide) rfl
    (by decide) (by decide) (Or.inl (by decide)) (by decide)

/-! ## The effects of `decode` -/

/-- The three ways `decode` can return. -/
theorem decode_cases (min_ethertype PROTO_BIT__ETH : Nat) (raw_pkt : List Byte)
    (raw_len : Nat) (p : Packet) (lyr_len next_prot_id : Nat) (r : DecodeResult)
    (hdec : EthCodec.decode min_ethertype PROTO_BIT__ETH raw_pkt raw_len p lyr_len
      next_prot_id = some r) :
    (raw_len < eth.hdr_len
      ∧ r = { ret := false, p := p, lyr_len := lyr_len, next_prot_id := next_prot_id,
              events := [CodecSid.DECODE_ETH_HDR_TRUNC] })
    ∨ (eth.hdr_len ≤ raw_len ∧ ∃ ty, eth.ether_type raw_pkt = some ty
      ∧ min_ethertype < ntohs ty
      ∧ r = { ret := true, p := { p with proto_bits := p.proto_bits ||| PROTO_BIT__ETH },
              lyr_len := eth.hdr_len, next_prot_id := ntohs ty, events := [] })
    ∨ (eth.hdr_len ≤ raw_len ∧ ∃ ty, eth.ether_type raw_pkt = some ty
      ∧ ntohs ty ≤ min_ethertype
      ∧ r = { ret := false, p := p, lyr_len := lyr_len, next_prot_id := ntohs ty,
              events := [] }) := by
  unfold EthCodec.decode at hdec
  by_cases h : raw_len < eth.hdr_len
  · rw [if_pos h] at hdec
    cases hdec
    exact Or.inl ⟨h, rfl⟩
  · rw [if_neg h] at hdec
    cases hty : eth.ether_type raw_pkt with
    | none => rw [hty] at hdec; cases hdec
    | some ty =>
      rw [hty] at hdec
      by_cases hgt : ntohs ty > min_ethertype
      · simp only [Option.bind, if_pos hgt] at hdec
        cases hdec
        exact Or.inr (Or.inl ⟨Nat.le_of_not_lt h, ty, rfl, hgt, rfl⟩)
      · simp only [Option.bind, if_neg hgt] at hdec
        cases hdec
        exact Or.inr (Or.inr ⟨Nat.le_of_not_lt h, ty, rfl, Nat.le_of_not_lt hgt, rfl⟩)

/-- On a buffer that holds the `raw_len` bytes announced, `decode` returns. -/
theorem decode_returns (min_ethertype PROTO_BIT__ETH : Nat) (raw_pkt : List Byte)
    (raw_len : Nat) (p : Packet) (lyr_len next_prot_id : Nat)
    (hbuf : raw_len ≤ raw_pkt.length) :
    ∃ r, EthCodec.decode min_ethertype PROTO_BIT__ETH raw_pkt raw_len p lyr_len
      next_prot_id = some r := by
  by_cases h : raw_len < eth.hdr_len
  · exact ⟨_, decode_of_short _ _ _ _ _ _ _ h⟩
  · have h14 : 14 ≤ raw_len := Nat.le_of_not_lt h
    rw [decode_of_header _ _ raw_pkt raw_len _ _ _ h14 hbuf]
    by_cases hgt : min_ethertype < (raw_pkt.getD 12 0).val * 256 + (raw_pkt.getD 13 0).val
    · rw [if_pos hgt]
      exact ⟨_, rfl⟩
    · rw [if_neg hgt]
      exact ⟨_, rfl⟩

/-- Claim C18: `decode` returns on every buffer that holds the announced bytes, and
however it returns, its only effect on the packet is to OR `PROTO_BIT__ETH` into
`proto_bits` when it returns true: the layers are untouched, every bit set before is set
after, a bit newly set is a bit of `PROTO_BIT__ETH`, and when `decode` returns false the
packet is the packet it was given. -/
theorem decode_packet_effect (min_ethertype PROTO_BIT__ETH : Nat) (raw_pkt : List Byte)
    (raw_len : Nat) (p : Packet) (lyr_len next_prot_id : Nat) :
    (raw_len ≤ raw_pkt.length →
      ∃ r, EthCodec.decode min_ethertype PROTO_BIT__ETH raw_pkt raw_len p lyr_len
        next_prot_id = some r)
    ∧ ∀ r, EthCodec.decode min_ethertype PROTO_BIT__ETH raw_pkt raw_len p lyr_len
        next_prot_id = some r →
      r.p.layers = p.layers
      ∧ (r.ret = true → r.p.proto_bits = p.proto_bits ||| PROTO_BIT__ETH)
      ∧ (r.ret = false → r.p = p)
      ∧ (∀ i, p.proto_bits.testBit i = true → r.p.proto_bits.testBit i = true)
      ∧ (∀ i, r.p.proto_bits.testBit i = true →
          p.proto_bits.testBit i = true ∨ PROTO_BIT__ETH.testBit i = true) := by
  refine ⟨decode_returns _ _ _ _ _ _ _, fun r hdec => ?_⟩
  rcases decode_cases _ _ _ _ _ _ _ r hdec with ⟨_, hr⟩ | ⟨_, ty, _, _, hr⟩ | ⟨_, ty, _, _, hr⟩
  · subst hr
    exact ⟨rfl, (fun h => by cases h), fun _ => rfl, fun _ h => h, fun _ h => Or.inl h⟩
  · subst hr
    refine ⟨rfl, fun _ => rfl, (fun h => by cases h), fun i h => ?_, fun i h => ?_⟩
    · show (p.proto_bits ||| PROTO_BIT__ETH).testBit i = true
      rw [Nat.testBit_lor, h]
      rfl
    · have h2 : (p.proto_bits ||| PROTO_BIT__ETH).testBit i = true := h
      rw [Nat.testBit_lor] at h2
      cases hp : p.proto_bits.testBit i with
      | true => exact Or.inl rfl
      | false =>
        rw [hp] at h2
        exact Or.inr (by simpa using h2)
  · subst hr
    exact ⟨rfl, (fun h => by cases h), fun _ => rfl, fun _ h => h, fun _ h => Or.inl h⟩

/-- Witness of C18: a packet with bit 0 set before; the frame with type `0x0800` sets the
Ethernet bit (8) beside it. -/
theorem decode_packet_effect_witness :
    ∃ r, EthCodec.decode 1536 8 frame_ipv4 14 ⟨1, []⟩ 0 0 = some r
      ∧ r.p.layers = []
      ∧ (r.ret = true → r.p.proto_bits = 1 ||| 8)
      ∧ (r.ret = false → r.p = ⟨1, []⟩)
      ∧ (∀ i, (1 : Nat).testBit i = true → r.p.proto_bits.testBit i = true)
      ∧ (∀ i, r.p.proto_bits.testBit i = true →
          (1 : Nat).testBit i = true ∨ (8 : Nat).testBit i = true) := by
  obtain ⟨r, hr⟩ := (decode_packet_effect 1536 8 frame_ipv4 14 ⟨1, []⟩ 0 0).1 (by decide)
  exact ⟨r, hr, (decode_packet_effect 1536 8 frame_ipv4 14 ⟨1, []⟩ 0 0).2 r hr⟩

/-- Claim C19: `lyr_len` is written only when `decode` returns true; for `raw_len < 14`
neither out-parameter is written; for `raw_len >= 14` (the bytes being there) `decode`
leaves the big-endian type field in `next_prot_id` whatever it returns; and a `decode`
that returns false can change the caller's `next_prot_id`: on the all-zero 14-byte frame
a caller's 1 becomes 0. -/
theorem decode_out_params (min_ethertype PROTO_BIT__ETH : Nat) (raw_pkt : List Byte)
    (raw_len : Nat) (p : Packet) (lyr_len next_prot_id : Nat) :
    (∀ r, EthCodec.decode min_ethertype PROTO_BIT__ETH raw_pkt raw_len p lyr_len
        next_prot_id = some r → r.ret = false → r.lyr_len = lyr_len)
    ∧ (raw_len < eth.hdr_len →
        ∃ r, EthCodec.decode min_ethertype PROTO_BIT__ETH raw_pkt raw_len p lyr_len
            next_prot_id = some r
          ∧ r.lyr_len = lyr_len ∧ r.next_prot_id = next_prot_id)
    ∧ (eth.hdr_len ≤ raw_len → raw_len ≤ raw_pkt.length →
        ∃ r, EthCodec.decode min_ethertype PROTO_BIT__ETH raw_pkt raw_len p lyr_len
            next_prot_id = some r
          ∧ r.next_prot_id = (raw_pkt.getD 12 0).val * 256 + (raw_pkt.getD 13 0).val)
    ∧ (∃ r, EthCodec.decode min_ethertype PROTO_BIT__ETH (List.replicate 14 0) 14 p lyr_len 1
          = some r
        ∧ r.ret = false ∧ r.next_prot_id = 0 ∧ r.next_prot_id ≠ 1) := by
  refine ⟨fun r hdec hret => ?_, fun h => ⟨_, decode_of_short _ _ _ _ _ _ _ h, rfl, rfl⟩,
    fun h14 hbuf => ?_, ?_⟩
  · rcases decode_cases _ _ _ _ _ _ _ r hdec with ⟨_, hr⟩ | ⟨_, ty, _, _, hr⟩ | ⟨_, ty, _, _, hr⟩
    · subst hr
      rfl
    · subst hr
      cases hret
    · subst hr
      rfl
  · rw [decode_of_header _ _ raw_pkt raw_len _ _ _ h14 hbuf]
    by_cases hgt : min_ethertype < (raw_pkt.getD 12 0).val * 256 + (raw_pkt.getD 13 0).val
    · rw [if_pos hgt]
      exact ⟨_, rfl, rfl⟩
    · rw [if_neg hgt]
      exact ⟨_, rfl, rfl⟩
  · have hz : ((List.replicate 14 (0 : Byte)).getD 12 0).val * 256
        + ((List.replicate 14 (0 : Byte)).getD 13 0).val = 0 := by decide
    rw [decode_of_header _ _ (List.replicate 14 0) 14 _ _ _ (Nat.le_refl 14) (by decide),
      hz, if_neg (Nat.not_lt_zero _)]
    exact ⟨_, rfl, rfl, rfl, fun h => Nat.noConfusion h⟩

/-- Witness of C19: the frame at the threshold fails and overwrites `next_prot_id`; the
13-byte buffer writes neither out-parameter. -/
theorem decode_out_params_witness :
    EthCodec.decode 1536 8 frame_at_threshold 14 ⟨0, []⟩ 3 4
      = some { ret := false, p := ⟨0, []⟩, lyr_len := 3, next_prot_id := 1536, events := [] }
    ∧ ∃ r, EthCodec.decode 1536 8 (List.replicate 13 0) 13 ⟨0, []⟩ 3 4 = some r
        ∧ r.lyr_len = 3 ∧ r.next_prot_id = 4 := by
  have h0 : EthCodec.decode 1536 8 frame_at_threshold 14 ⟨0, []⟩ 3 4
      = some { ret := false, p := ⟨0, []⟩, lyr_len := 3, next_prot_id := 1536,
               events := [] } := by decide
  exact ⟨h0, (decode_out_params 1536 8 (List.replicate 13 0) 13 ⟨0, []⟩ 3 4).2.1 (by decide)⟩

/-! ## `util::ltrim`, `util::rtrim`, `util::trim` -/

/-- `ltrim` drops the longest all-whitespace prefix. -/
theorem ltrim_eq_dropWhile (isspace : Char → Bool) (s : List Char) :
    util.ltrim isspace s = s.dropWhile isspace := by
  unfold util.ltrim util.erase util.find_if
  rw [List.take_zero, List.nil_append, List.dropWhile_eq_drop_findIdx_not]

/-- `rtrim` drops the longest all-whitespace suffix. -/
theorem rtrim_eq_rdropWhile (isspace : Char → Bool) (s : List Char) :
    util.rtrim isspace s = s.rdropWhile isspace := by
  unfold util.rtrim util.erase util.find_if List.rdropWhile
  rw [List.drop_length, List.append_nil, List.dropWhile_eq_drop_findIdx_not,
    List.drop_reverse, List.reverse_reverse]

/-- `trim` drops the suffix, then the prefix. -/
theorem trim_eq (isspace : Char → Bool) (s : List Char) :
    util.trim isspace s = (s.rdropWhile isspace).dropWhile isspace := by
  unfold util.trim
  rw [ltrim_eq_dropWhile, rtrim_eq_rdropWhile]

/-- A string is its trailing-trimmed part followed by whitespace only. -/
theorem rdropWhile_append_spaces (isspace : Char → Bool) (s : List Char) :
    ∃ suf, s = s.rdropWhile isspace ++ suf ∧ ∀ c ∈ suf, isspace c = true := by
  refine ⟨(s.reverse.takeWhile isspace).reverse, ?_, ?_⟩
  · unfold List.rdropWhile
    rw [← List.reverse_append, List.takeWhile_append_dropWhile, List.reverse_reverse]
  · intro c hc
    exact List.mem_takeWhile_imp (List.mem_reverse.mp hc)

/-- A string is whitespace only followed by its leading-trimmed part. -/
theorem spaces_append_dropWhile (isspace : Char → Bool) (s : List Char) :
    ∃ pre, s = pre ++ s.dropWhile isspace ∧ ∀ c ∈ pre, isspace c = true :=
  ⟨s.takeWhile isspace, (List.takeWhile_append_dropWhile isspace s).symm,
    fun _ hc => List.mem_takeWhile_imp hc⟩

/-- The first character left by dropping the whitespace prefix is not whitespace. -/
theorem head_dropWhile_not_space (isspace : Char → Bool) (s : List Char) (c : Char)
    (h : (s.dropWhile isspace).head? = some c) : isspace c = false := by
  have h2 := List.head?_dropWhile_not isspace s
  rw [h] at h2
  exact h2

/-- The last character left by dropping the whitespace suffix is not whitespace. -/
theorem getLast_rdropWhile_not_space (isspace : Char → Bool) (s : List Char) (c : Char)
    (h : (s.rdropWhile isspace).getLast? = some c) : isspace c = false := by
  have hne : s.rdropWhile isspace ≠ [] := by
    intro h0
    rw [h0] at h
    cases h
  have h2 := List.rdropWhile_last_not isspace s hne
  rw [List.getLast?_eq_getLast _ hne] at h
  cases h
  simpa using h2

/-- Dropping a prefix of a list keeps its last element. -/
theorem getLast_dropWhile (isspace : Char → Bool) (s : List Char) (c : Char)
    (h : (s.dropWhile isspace).getLast? = some c) : s.getLast? = some c := by
  obtain ⟨pre, hpre, _⟩ := spaces_append_dropWhile isspace s
  have hne : s.dropWhile isspace ≠ [] := by
    intro h0
    rw [h0] at h
    cases h
  rw [hpre, List.getLast?_append_of_ne_nil _ hne]
  exact h

/-- Claim C14: `ltrim` removes exactly the longest all-whitespace prefix, `rtrim` exactly
the longest all-whitespace suffix, and `trim` both: `s` is whitespace, then `trim s`, then
whitespace, so `trim s` is a contiguous part of `s` with its interior untouched; `trim s`
neither starts nor ends with a whitespace character; and `trim s` is empty exactly when
every character of `s` is whitespace. Whitespace is what `isspace` says. -/
theorem trim_both_ends (isspace : Char → Bool) (s : List Char) :
    util.ltrim isspace s = s.dropWhile isspace
    ∧ util.rtrim isspace s = s.rdropWhile isspace
    ∧ (∃ pre suf, s = pre ++ util.trim isspace s ++ suf
        ∧ (∀ c ∈ pre, isspace c = true) ∧ (∀ c ∈ suf, isspace c = true))
    ∧ (∀ c, (util.trim isspace s).head? = some c → isspace c = false)
    ∧ (∀ c, (util.trim isspace s).getLast? = some c → isspace c = false)
    ∧ (util.trim isspace s = [] ↔ ∀ c ∈ s, isspace c = true) := by
  refine ⟨ltrim_eq_dropWhile isspace s, rtrim_eq_rdropWhile isspace s, ?_, ?_, ?_, ?_⟩
  · obtain ⟨suf, hsuf, hs⟩ := rdropWhile_append_spaces isspace s
    obtain ⟨pre, hpre, hp⟩ := spaces_append_dropWhile isspace (s.rdropWhile isspace)
    refine ⟨pre, suf, ?_, hp, hs⟩
    rw [trim_eq, ← hpre, ← hsuf]
  · intro c hc
    rw [trim_eq] at hc
    exact head_dropWhile_not_space isspace _ c hc
  · intro c hc
    rw [trim_eq] at hc
    exact getLast_rdropWhile_not_space isspace s c (getLast_dropWhile isspace _ c hc)
  · rw [trim_eq]
    constructor
    · intro h
      have hall : ∀ x ∈ s.rdropWhile isspace, isspace x = true :=
        List.dropWhile_eq_nil_iff.mp h
      have hnil : s.rdropWhile isspace = [] := by
        by_contra hne
        have hlast := List.rdropWhile_last_not isspace s hne
        exact hlast (hall _ (List.getLast_mem hne))
      exact List.rdropWhile_eq_nil_iff.mp hnil
    · intro h
      rw [List.rdropWhile_eq_nil_iff.mpr h]
      rfl

/-- Witness of C14: `"  a b \t"` trimmed is `"a b"`, with the two spaces in front and the
space and tab behind removed and the inner space kept. -/
theorem trim_both_ends_witness :
    util.ltrim sample_isspace [' ', ' ', 'a', ' ', 'b', ' ', '\t'] = ['a', ' ', 'b', ' ', '\t']
    ∧ util.rtrim sample_isspace [' ', ' ', 'a', ' ', 'b', ' ', '\t'] = [' ', ' ', 'a', ' ', 'b']
    ∧ util.trim sample_isspace [' ', ' ', 'a', ' ', 'b', ' ', '\t'] = ['a', ' ', 'b']
    ∧ (util.trim sample_isspace [' ', '\t', ' '] = []
        ↔ ∀ c ∈ [' ', '\t', ' '], sample_isspace c = true) :=
  ⟨(trim_both_ends sample_isspace [' ', ' ', 'a', ' ', 'b', ' ', '\t']).1.trans (by decide),
   (trim_both_ends sample_isspace [' ', ' ', 'a', ' ', 'b', ' ', '\t']).2.1.trans
     (by decide),
   by decide,
   (trim_both_ends sample_isspace [' ', '\t', ' ']).2.2.2.2.2⟩

/-- Whitespace put in front of a string does not change what `trim` gives. -/
theorem trim_spaces_append (isspace : Char → Bool) (a l : List Char)
    (ha : ∀ c ∈ a, isspace c = true) :
    util.trim isspace (a ++ l) = util.trim isspace l := by
  rw [trim_eq, trim_eq]
  by_cases hl : ∀ c ∈ l, isspace c = true
  · have hal : ∀ c ∈ a ++ l, isspace c = true := by
      intro c hc
      rcases List.mem_append.mp hc with h | h
      · exact ha c h
      · exact hl c h
    rw [List.rdropWhile_eq_nil_iff.mpr hal, List.rdropWhile_eq_nil_iff.mpr hl]
  · have hne : l.reverse.dropWhile isspace ≠ [] := by
      intro h0
      apply hl
      intro c hc
      exact List.dropWhile_eq_nil_iff.mp h0 c (List.mem_reverse.mpr hc)
    have hr : (a ++ l).rdropWhile isspace = a ++ l.rdropWhile isspace := by
      unfold List.rdropWhile
      rw [List.reverse_append, List.dropWhile_append]
      have he : (l.reverse.dropWhile isspace).isEmpty = false := by
        cases h : l.reverse.dropWhile isspace with
        | nil => exact absurd h hne
        | cons x xs => rfl
      rw [he]
      simp only [Bool.false_eq_true, if_false, List.reverse_append, List.reverse_reverse]
    rw [hr, List.dropWhile_append_of_pos ha]

/-- Trimming a left-trimmed string after one space is trimming the string, when a space
is whitespace. -/
theorem accumulate_first (isspace : Char → Bool) (hsp : isspace ' ' = true)
    (tmp : List Char) :
    Converter.accumulate isspace [] tmp = util.trim isspace tmp := by
  unfold Converter.accumulate
  rw [ltrim_eq_dropWhile, List.nil_append]
  have h1 : util.trim isspace (' ' :: tmp.dropWhile isspace)
      = util.trim isspace (tmp.dropWhile isspace) :=
    trim_spaces_append isspace [' '] (tmp.dropWhile isspace) (by
      intro c hc
      rw [List.mem_singleton.mp hc]
      exact hsp)
  obtain ⟨pre, hpre, hp⟩ := spaces_append_dropWhile isspace tmp
  have h2 : util.trim isspace tmp = util.trim isspace (tmp.dropWhile isspace) := by
    conv => lhs; rw [hpre]
    exact trim_spaces_append isspace pre _ hp
  rw [h1, h2]

/-! ## Line continuation in `Converter::convert_file` -/

/-- The branch `dispatch` takes on a text that ends with a backslash and does not begin
with `#`. -/
theorem dispatch_continued (isspace : Char → Bool) (t : List Char)
    (hhash : t.head? ≠ some '#') (hbs : t.getLast? = some '\\') :
    Converter.dispatch isspace t = (util.rtrim isspace t.dropLast, LineEvent.continued) := by
  have hne : t.isEmpty = false := by
    cases t with
    | nil => cases hbs
    | cons x xs => rfl
  unfold Converter.dispatch
  rw [hne, if_neg hhash, if_pos hbs]
  rfl

/-- The branch `dispatch` takes on a text that begins with `#`. -/
theorem dispatch_comment (isspace : Char → Bool) (t : List Char)
    (hhash : t.head? = some '#') :
    Converter.dispatch isspace t
      = ([], LineEvent.reject_comment (util.trim isspace t.tail)) := by
  have hne : t.isEmpty = false := by
    cases t with
    | nil => cases hhash
    | cons x xs => rfl
  unfold Converter.dispatch
  rw [hne, if_pos hhash]
  rfl

/-- Claim C16: a line `l1` read with no pending text whose trimmed form does not begin
with `#` and ends with a backslash (so is non-empty) is not handed to the conversion
state: the pass leaves `u1 = rtrim (trim l1 without its last character)` pending; after
the next line `l2` the text examined is `trim (u1 ++ ' ' ++ ltrim l2)`. A pass whose
accumulated text begins with `#` records the text after the `#`, trimmed, as a reject
comment and leaves nothing pending, whatever the text ends with. A space is taken to be
whitespace. -/
theorem convert_file_continuation (isspace : Char → Bool) (hsp : isspace ' ' = true)
    (l1 l2 : List Char)
    (hhash : (util.trim isspace l1).head? ≠ some '#')
    (hbs : (util.trim isspace l1).getLast? = some '\\') :
    Converter.convert_line isspace [] l1
      = (util.rtrim isspace (util.trim isspace l1).dropLast, LineEvent.continued)
    ∧ Converter.convert_lines isspace [] [l1, l2]
      = [LineEvent.continued,
         (Converter.dispatch isspace (util.trim isspace
            (util.rtrim isspace (util.trim isspace l1).dropLast
              ++ ' ' :: util.ltrim isspace l2))).2]
    ∧ (∀ orig_text tmp : List Char,
        (Converter.accumulate isspace orig_text tmp).head? = some '#' →
        Converter.convert_line isspace orig_text tmp
          = ([], LineEvent.reject_comment
              (util.trim isspace (Converter.accumulate isspace orig_text tmp).tail))) := by
  have h1 : Converter.convert_line isspace [] l1
      = (util.rtrim isspace (util.trim isspace l1).dropLast, LineEvent.continued) := by
    unfold Converter.convert_line
    rw [accumulate_first isspace hsp l1]
    exact dispatch_continued isspace _ hhash hbs
  refine ⟨h1, ?_, fun orig_text tmp h => ?_⟩
  · show [(Converter.convert_line isspace [] l1).2,
        (Converter.convert_line isspace (Converter.convert_line isspace [] l1).1 l2).2] = _
    rw [h1]
    rfl
  · unfold Converter.convert_line
    exact dispatch_comment isspace _ h

/-- Witness of C16: `var x \` continued by `  y` is converted as `var x y`, and the
comment line `# c \` is recorded as `c \`. -/
theorem convert_file_continuation_witness :
    Converter.convert_lines sample_isspace []
        [['v', 'a', 'r', ' ', 'x', ' ', '\\'], [' ', ' ', 'y']]
      = [LineEvent.continued, LineEvent.convert ['v', 'a', 'r', ' ', 'x', ' ', 'y']]
    ∧ Converter.convert_line sample_isspace [] ['#', ' ', 'c', ' ', '\\']
      = ([], LineEvent.reject_comment ['c', ' ', '\\']) := by
  have h := convert_file_continuation sample_isspace (by decide)
    ['v', 'a', 'r', ' ', 'x', ' ', '\\'] [' ', ' ', 'y'] (by decide) (by decide)
  refine ⟨h.2.1.trans (by decide), (h.2.2 [] ['#', ' ', 'c', ' ', '\\'] (by decide)).trans
    (by decide)⟩
